import Mathlib

/-
Verification of the RLZ (Relative Lempel-Ziv) codec core of the rlztools
repository: the parser (rlzparse.cpp), the unparser (rlzunparse.cpp) and
the token codecs (rlzcommon.cpp).

Modelling conventions (shallow embedding):
- Symbols (C++ template type T, an unsigned integer of W bits) are modelled
  as Nat; where the bit width matters, hypotheses bound values by 2^W.
- The dictionary and the suffix array (C++ FileReader<T>) are Lists of Nat.
  FileReader::operator[] performs no bounds check; every access in the code
  that is guarded by an explicit bound check is modelled with List.getD
  (the default is never reached at guarded call sites), while the single
  UNguarded dictionary access in the parser fast path is modelled with an
  explicit oracle g : Nat -> Nat providing the value of an out-of-bounds
  read (in C++ this read is past the end of a heap allocation), plus a
  ghost flag PState.oob recording that such a read happened.
- C++ loops are translated to fuel-based structural recursion. The fuel
  supplied by each wrapper strictly exceeds the maximal number of loop
  iterations (each iteration strictly shrinks the quantity the fuel is
  computed from), so the fuel-exhaustion branch mirrors the C++ loop-exit
  branch and is never taken with the supplied fuel.
- C++ long long is Int, unsigned 64-bit quantities are Nat (with explicit
  mod 2^64 where C++ wraps). At every (l + r) / 2 in the binary searches
  both operands are nonnegative, where Int division in Lean agrees with
  C++ division.
- exit()/abort() paths are modelled with Except.
-/

/- ===================== Tokens (rlzcommon.h) ===================== -/

/-- RLZToken from rlzcommon.h: uint64_t start_pos, int64_t length. -/
structure RLZToken where
  start_pos : Nat
  length : Int
deriving Repr, DecidableEq

instance (α β : Type) [DecidableEq α] [DecidableEq β] :
    DecidableEq (Except α β) := fun x y =>
  match x, y with
  | .error a, .error b => decidable_of_iff (a = b) (by simp)
  | .error _, .ok _ => isFalse (by simp)
  | .ok _, .error _ => isFalse (by simp)
  | .ok a, .ok b => decidable_of_iff (a = b) (by simp)

/-- ULLONG_MAX. -/
def U64MAX : Nat := 2 ^ 64 - 1

/-- The in-band end-of-stream sentinel (rlzcommon.h): start ULLONG_MAX, length -1. -/
def end_sentinel : RLZToken := ⟨U64MAX, -1⟩

/-- is_end_sentinel from rlzcommon.cpp: compares both fields to the sentinel. -/
def is_end_sentinel (t : RLZToken) : Bool :=
  t.start_pos == U64MAX && t.length == -1

/- ===================== Array access helpers ===================== -/

/-- Guarded access to a FileReader-backed array; the default 0 is never
reached at call sites (each is behind an explicit bound check in the code). -/
def dget (D : List Nat) (i : Nat) : Nat := D.getD i 0

/-- Suffix-array access at a Nat index. -/
def saN (SA : List Nat) (i : Nat) : Nat := SA.getD i 0

/-- Suffix-array access at a C++ long long index (always nonnegative and in
range at call sites). -/
def saGetI (SA : List Nat) (i : Int) : Nat := SA.getD i.toNat 0

/-- The unguarded dictionary read of the parser fast path: in range it reads
the dictionary, out of range the C++ code reads past the allocation
(undefined behaviour), modelled by the oracle g. -/
def dictRead (D : List Nat) (g : Nat → Nat) (i : Nat) : Nat :=
  if i < D.length then dget D i else g i

/- ===================== Parser input state (rlzparse.cpp) ===================== -/

/-- State of the Parser input stream: remaining input symbols, the sticky
eof flag of the ifstream, the one-symbol unget buffer, the read_counter,
and a ghost flag recording that an out-of-bounds dictionary read happened. -/
structure PState where
  rest : List Nat
  eofFlag : Bool
  ungetBuf : Option Nat
  rc : Int
  oob : Bool
deriving Repr, DecidableEq

/-- Parser::getnext: consult the unget buffer first, else read one symbol;
a read at end of file leaves the zero-initialised buffer and sets eof.
read_counter is incremented in every case. -/
def getnext (st : PState) : Nat × PState :=
  match st.ungetBuf with
  | some s => (s, { st with ungetBuf := none, rc := st.rc + 1 })
  | none =>
    match st.rest with
    | [] => (0, { st with eofFlag := true, rc := st.rc + 1 })
    | x :: xs => (x, { st with rest := xs, rc := st.rc + 1 })

/-- Parser::unget: stash one symbol, decrement read_counter. -/
def unget (sym : Nat) (st : PState) : PState :=
  { st with ungetBuf := some sym, rc := st.rc - 1 }

/-- Parser::end_of_input: eof and no unget pending. -/
def end_of_input (st : PState) : Bool := st.eofFlag && st.ungetBuf.isNone

/-- The symbols still to be delivered: unget buffer first, then the stream. -/
def pend (st : PState) : List Nat :=
  match st.ungetBuf with
  | some s => s :: st.rest
  | none => st.rest

/- ===================== Binary searches (rlzparse.cpp 607-687) ===================== -/

/-- Loop of Parser::search_left. Arguments after the fuel are the loop
variables left and right; oldL is old_left_bound. The fuel-0 result equals
the loop-exit result and is unreachable with the wrapper-supplied fuel. -/
def searchLeftGo (D SA : List Nat) (c : Nat) (off : Nat) (oldL : Int) :
    Nat → Int → Int → Int
  | 0, l, _ => -(l + 1)
  | fuel + 1, l, r =>
    if l ≤ r then
      let mid := (l + r) / 2
      if saGetI SA mid + off ≥ D.length then
        searchLeftGo D SA c off oldL fuel (mid + 1) r
      else
        let ms := dget D (saGetI SA mid + off)
        if ms < c then searchLeftGo D SA c off oldL fuel (mid + 1) r
        else if c < ms then searchLeftGo D SA c off oldL fuel l (mid - 1)
        else if mid = oldL then mid
        else if saGetI SA (mid - 1) + off ≥ D.length then mid
        else if dget D (saGetI SA (mid - 1) + off) = ms then
          searchLeftGo D SA c off oldL fuel l (mid - 1)
        else mid
    else -(l + 1)

/-- Parser::search_left. Returns the leftmost index m in the range with
D[SA[m] + offset] == c, or a negative value if there is none. -/
def search_left (D SA : List Nat) (c : Nat) (off : Nat)
    (old_left_bound right_bound : Int) : Int :=
  searchLeftGo D SA c off old_left_bound
    ((right_bound + 1 - old_left_bound).toNat + 1) old_left_bound right_bound

/-- Loop of Parser::search_right; note the not-found result -(right - 1),
taken verbatim from the source. -/
def searchRightGo (D SA : List Nat) (c : Nat) (off : Nat) (oldR : Int) :
    Nat → Int → Int → Int
  | 0, _, r => -(r - 1)
  | fuel + 1, l, r =>
    if l ≤ r then
      let mid := (l + r) / 2
      if saGetI SA mid + off ≥ D.length then
        searchRightGo D SA c off oldR fuel (mid + 1) r
      else
        let ms := dget D (saGetI SA mid + off)
        if ms < c then searchRightGo D SA c off oldR fuel (mid + 1) r
        else if c < ms then searchRightGo D SA c off oldR fuel l (mid - 1)
        else if mid = oldR then mid
        else if saGetI SA (mid + 1) + off ≥ D.length then mid
        else if dget D (saGetI SA (mid + 1) + off) = ms then
          searchRightGo D SA c off oldR fuel (mid + 1) r
        else mid
    else -(r - 1)

/-- Parser::search_right. -/
def search_right (D SA : List Nat) (c : Nat) (off : Nat)
    (left_bound old_right_bound : Int) : Int :=
  searchRightGo D SA c off old_right_bound
    ((old_right_bound + 1 - left_bound).toNat + 1) left_bound old_right_bound

/- ===================== Parser::next_token (rlzparse.cpp 303-541) ===================== -/

/-- The single-match fast path (rlzparse.cpp 460-492): leftmost == rightmost,
extend the match along the one suffix by direct dictionary comparison.
The dictionary access dict[token_start_pos + offset] is NOT bounds-checked
in the source; out of range it consults the oracle and sets the ghost flag. -/
def fastLoopGo (D : List Nat) (g : Nat → Nat) (n : Int) (startP : Nat) :
    Nat → Nat → Nat → PState → RLZToken × PState
  | 0, offset, _, st => (⟨startP, (offset : Int)⟩, st)
  | fuel + 1, offset, c, st =>
    if st.rc ≤ n then
      let st1 := if startP + offset < D.length then st else { st with oob := true }
      let d := dictRead D g (startP + offset)
      if c ≠ d then
        (⟨startP, (offset : Int)⟩, unget c st1)
      else
        fastLoopGo D g n startP fuel (offset + 1) (getnext st1).1 (getnext st1).2
    else (⟨startP, (offset : Int)⟩, st)

/-- Wrapper supplying sufficient fuel for the fast-path loop (read_counter
grows by one per iteration and the loop stops once it exceeds n). -/
def fastLoop (D : List Nat) (g : Nat → Nat) (n : Int) (startP : Nat)
    (offset : Nat) (c : Nat) (st : PState) : RLZToken × PState :=
  fastLoopGo D g n startP ((n + 1 - st.rc).toNat + 1) offset c st

/-- Main loop of Parser::next_token. n is source_file_size_symbols. The
fuel-0 branch equals the loop-exit branch (lines 528-540) and is
unreachable with the wrapper-supplied fuel. -/
def tokenLoopGo (D SA : List Nat) (g : Nat → Nat) (n : Int) :
    Nat → Nat → Int → Int → Int → Int → Bool → Nat → PState →
    Except String (RLZToken × PState)
  | 0, _, _, _, _, _, _, _, st =>
    if end_of_input st then .ok (end_sentinel, st)
    else .error "outside token-finding loop"
  | fuel + 1, offset, leftmost, rightmost, bestPos, bestLen, msf, c, st =>
    if st.rc ≤ n then
      if end_of_input st then .ok (end_sentinel, st)
      else
        let L := search_left D SA c offset leftmost rightmost
        if L < 0 then
          if msf then .ok (⟨saGetI SA bestPos, bestLen⟩, unget c st)
          else .ok (⟨c, 0⟩, st)
        else
          let R := search_right D SA c offset L rightmost
          if R < 0 then .error "failed binary search"
          else
            if L = R then
              .ok (fastLoop D g n (saGetI SA L) offset c st)
            else
              let c2 := (getnext st).1
              let st2 := (getnext st).2
              if end_of_input st2 then .ok (⟨saGetI SA L, (offset : Int) + 1⟩, st2)
              else
                tokenLoopGo D SA g n fuel (offset + 1) L R L ((offset : Int) + 1)
                  true c2 st2
    else
      if end_of_input st then .ok (end_sentinel, st)
      else .error "outside token-finding loop"

/-- Parser::next_token: read the first symbol, then run the main loop with
offset 0, bounds [0, sa_size - 1], no best match yet. -/
def next_token (D SA : List Nat) (g : Nat → Nat) (n : Int) (st : PState) :
    Except String (RLZToken × PState) :=
  let c := (getnext st).1
  let st1 := (getnext st).2
  tokenLoopGo D SA g n ((n + 1 - st1.rc).toNat + 1) 0 0 ((SA.length : Int) - 1)
    0 0 false c st1

/-- The Parser::work loop: collect tokens until the end sentinel. -/
def parseGo (D SA : List Nat) (g : Nat → Nat) (n : Int) :
    Nat → PState → Except String (List RLZToken × PState)
  | 0, _ => .error "model: fuel exhausted"
  | fuel + 1, st =>
    match next_token D SA g n st with
    | .error e => .error e
    | .ok (tok, st1) =>
      if is_end_sentinel tok then .ok ([], st1)
      else
        match parseGo D SA g n fuel st1 with
        | .error e => .error e
        | .ok (toks, st2) => .ok (tok :: toks, st2)

/-- Full parse of an input symbol list against dictionary D and suffix
array SA: the emitted token list (sentinel excluded) plus the ghost flag
telling whether any out-of-bounds dictionary read happened. -/
def parse (D SA : List Nat) (g : Nat → Nat) (I : List Nat) :
    Except String (List RLZToken × Bool) :=
  match parseGo D SA g (I.length : Int) (I.length + 2) ⟨I, false, none, 0, false⟩ with
  | .error e => .error e
  | .ok (toks, st) => .ok (toks, st.oob)

/- ===================== Unparser (rlzunparse.cpp) ===================== -/

/-- Reinterpretation of a uint64 bit pattern as int64 (two's complement),
as in the conversions long long pos = token.start_pos (rlzunparse.cpp 100)
and the 64x2 length field read. -/
def toSigned64 (u : Nat) : Int :=
  if u < 2 ^ 63 then (u : Int) else (u : Int) - 2 ^ 64

/-- Result of OutputWriter::write_next: the symbols written to the output
file, the C++ return value, whether the truncation warning was logged, and
a ghost flag recording that the copy loop read a negative dictionary index
(an out-of-dictionary access through FileReader::operator[]). -/
structure WNResult where
  out : List Nat
  ret : Int
  warned : Bool
  oob : Bool
deriving Repr, DecidableEq

/-- OutputWriter::write_next (rlzunparse.cpp 99-130). The source first
converts the uint64 start_pos to long long (line 100), wrapping values at
or above 2^63 to negative; the window arithmetic, the truncation check
token_end > dict_size (dict_size is a signed long, line 85), and the copy
loop indices all use that signed value. A literal (length 0) writes one
symbol start_pos truncated to W bits and returns 1; otherwise symbols
dict[pos + start .. token_end) are written, with token_end = pos + stop
(stop defaulting to length) truncated to the dictionary size with a
warning, and the return value is token.length regardless of how many
symbols were written. A wrapped-negative pos defeats the truncation check,
and dict[x] at the resulting negative x reads outside the dictionary
(undefined behaviour): the ghost oob field records such reads, whose
unspecified values are modelled as 0. -/
def write_next (W : Nat) (D : List Nat) (tok : RLZToken) (start stop : Int) :
    WNResult :=
  let pos : Int := toSigned64 (tok.start_pos % 2 ^ 64)
  let len : Int := tok.length
  if len = 0 then
    ⟨[tok.start_pos % 2 ^ W], 1, false, false⟩
  else
    let stop1 := if stop ≤ 0 then len else stop
    let te0 := pos + stop1
    let warned := te0 > (D.length : Int)
    let te := if te0 > (D.length : Int) then (D.length : Int) else te0
    let x0 := pos + start
    let cnt := (te - x0).toNat
    ⟨(List.range cnt).map
        (fun (i : Nat) => if x0 + (i : Int) < 0 then 0
          else dget D (x0 + (i : Int)).toNat),
      len, warned, 0 < cnt ∧ x0 < 0⟩

/-- Result of OutputWriter::unparse: output symbols, tokens read, symbols
written (the latter two are packed into one uint64 by the C++ return). -/
structure UPResult where
  out : List Nat
  toksRead : Int
  symsWritten : Int
deriving Repr, DecidableEq

/-- Loop of OutputWriter::unparse (rlzunparse.cpp 133-266) over the decoded
token stream, with window bounds a = start_pos, b = stop_pos (1-based
inclusive, 0 meaning open), accumulator arguments tokens-read,
symbols-written, output_pos and the output so far. Early returns model the
break statements. -/
def unparseGo (W : Nat) (D : List Nat) (a b : Int) :
    List RLZToken → Int → Int → Int → List Nat → UPResult
  | [], tr, sw, _, acc => ⟨acc, tr, sw⟩
  | tok :: rest, tr, sw, opos, acc =>
    if is_end_sentinel tok then ⟨acc, tr, sw⟩
    else
      let tr1 := tr + 1
      if a = 0 ∧ b = 0 then
        let w := write_next W D tok 0 0
        unparseGo W D a b rest tr1 (sw + w.ret) opos (acc ++ w.out)
      else
        let effLen : Int := if tok.length = 0 then 1 else tok.length
        let tsp := opos + 1
        let tep := opos + effLen
        if a > 0 ∧ b = 0 then
          if tsp ≥ a then
            let w := write_next W D tok 0 0
            unparseGo W D a b rest tr1 (sw + w.ret) tep (acc ++ w.out)
          else if tsp < a ∧ tep ≥ a then
            let w := write_next W D tok (a - tsp) tok.length
            unparseGo W D a b rest tr1 (sw + w.ret) tep (acc ++ w.out)
          else
            unparseGo W D a b rest tr1 sw tep acc
        else if a = 0 ∧ b > 0 then
          if tep < b then
            let w := write_next W D tok 0 0
            unparseGo W D a b rest tr1 (sw + w.ret) tep (acc ++ w.out)
          else if tsp ≤ b ∧ tep ≥ b then
            let w := write_next W D tok 0 (tok.length + b - tep)
            unparseGo W D a b rest tr1 (sw + w.ret) tep (acc ++ w.out)
          else ⟨acc, tr1, sw⟩
        else
          if tsp > b ∨ tep < a then
            if tsp > b then ⟨acc, tr1, sw⟩
            else unparseGo W D a b rest tr1 sw tep acc
          else if tsp ≥ a ∧ tep ≤ b then
            let w := write_next W D tok 0 0
            unparseGo W D a b rest tr1 (sw + w.ret) tep (acc ++ w.out)
          else if tsp ≤ a ∧ tep ≤ b then
            let w := write_next W D tok (a - tsp) tok.length
            unparseGo W D a b rest tr1 (sw + w.ret) tep (acc ++ w.out)
          else if tsp ≥ a ∧ tep ≥ b then
            let w := write_next W D tok 0 (tok.length + b - tep)
            unparseGo W D a b rest tr1 (sw + w.ret) tep (acc ++ w.out)
          else
            let w := write_next W D tok (a - tsp) (tok.length + b - tep)
            unparseGo W D a b rest tr1 (sw + w.ret) tep (acc ++ w.out)

/-- OutputWriter::unparse on a decoded token stream with window (a, b). -/
def unparse (W : Nat) (D : List Nat) (toks : List RLZToken) (a b : Int) :
    UPResult :=
  unparseGo W D a b toks 0 0 0 []

/- ===================== Token codec: encoder (rlzparse.cpp output_token) ===================== -/

/-- Output formats (FMT_32X2, FMT_64X2, FMT_ASCII, FMT_VBYTE). -/
inductive RLZFmt where
  | f32x2 | f64x2 | ascii | vbyte
deriving Repr, DecidableEq

/-- Little-endian byte serialisation of a value held in a k-byte integer. -/
def leBytes : Nat → Nat → List Nat
  | 0, _ => []
  | k + 1, v => v % 256 :: leBytes k (v / 256)

/-- Little-endian value of a byte list (memory reinterpreted as an integer). -/
def leVal (bs : List Nat) : Nat := bs.foldr (fun b acc => b + 256 * acc) 0

/-- Chunk loop of the vbyte encoder in output_token: emit 7 bits at a time,
low bits first, continuation bit 0x80 on every chunk except the last.
The fuel v is an upper bound on the chunk count for any positive v. -/
def vbLoop : Nat → Nat → List Nat
  | 0, _ => []
  | fuel + 1, v =>
    if v = 0 then []
    else (if v ≤ 127 then v else v % 128 + 128) :: vbLoop fuel (v / 128)

/-- Vbyte encoding of the start_pos field (uint64): zero is one 0x00 byte. -/
def vbEncodeField (v : Nat) : List Nat :=
  if v = 0 then [0] else vbLoop v v

/-- Vbyte encoding of the length field (int64): the source writes a 0x00
byte for zero and chunks only while the value is positive, so a negative
length would produce no bytes at all. -/
def vbEncodeLen (v : Int) : List Nat :=
  if v = 0 then [0]
  else if 0 < v then vbLoop v.toNat v.toNat
  else []

/-- Little-endian decimal digit list; the fuel v bounds the digit count. -/
def decAux : Nat → Nat → List Nat
  | 0, _ => []
  | fuel + 1, v => if v = 0 then [] else v % 10 :: decAux fuel (v / 10)

/-- std::to_string of a uint64: most-significant-first ASCII decimal digits. -/
def toDec (v : Nat) : List Nat :=
  if v = 0 then [48] else ((decAux v v).reverse).map (fun d => d + 48)

/-- std::to_string of an int64. -/
def toDecInt (v : Int) : List Nat :=
  if v < 0 then 45 :: toDec (-v).toNat else toDec v.toNat

/-- output_token (rlzparse.cpp 119-191): bytes appended to the output file
for one token; the end sentinel writes nothing. Casts (uint32_t)x and
(uint64_t)x are value mod 2^32 and mod 2^64; ints are written in machine
byte order, little-endian on the target. 32 and 10 are the ASCII space and
newline written by the ascii format. -/
def output_token (fmt : RLZFmt) (t : RLZToken) : List Nat :=
  if is_end_sentinel t then []
  else
    match fmt with
    | .f32x2 => leBytes 4 (t.start_pos % 2 ^ 32) ++ leBytes 4 ((t.length % 2 ^ 32).toNat)
    | .f64x2 => leBytes 8 (t.start_pos % 2 ^ 64) ++ leBytes 8 ((t.length % 2 ^ 64).toNat)
    | .ascii => toDec t.start_pos ++ [32] ++ toDecInt t.length ++ [10]
    | .vbyte => vbEncodeField t.start_pos ++ vbEncodeLen t.length

/-- Byte stream written for a token sequence (the work loop calls
output_token once per token; the final sentinel contributes no bytes). -/
def encodeAll (fmt : RLZFmt) (toks : List RLZToken) : List Nat :=
  (toks.map (output_token fmt)).flatten

/- ===================== Token codec: decoder (rlzcommon.cpp RLZInputReader) ===================== -/

/-- State of the RLZInputReader ifstream: remaining bytes plus the sticky
eofbit and failbit. -/
structure RState where
  bytes : List Nat
  eofbit : Bool
  failbit : Bool
deriving Repr, DecidableEq

/-- next_token_32x2: read 8 bytes; a short read sets eofbit and failbit and
yields the sentinel; otherwise the two little-endian uint32 fields.
The length field is zero-extended into the int64. -/
def next_token_32x2 (st : RState) : RLZToken × RState :=
  if st.bytes.length < 8 then
    (end_sentinel, ⟨[], true, true⟩)
  else
    (⟨leVal (st.bytes.take 4), (leVal ((st.bytes.drop 4).take 4) : Int)⟩,
     ⟨st.bytes.drop 8, st.eofbit, st.failbit⟩)

/-- next_token_64x2: as 32x2 with two little-endian uint64 fields; the
length bit pattern is reinterpreted as int64. -/
def next_token_64x2 (st : RState) : RLZToken × RState :=
  if st.bytes.length < 16 then
    (end_sentinel, ⟨[], true, true⟩)
  else
    (⟨leVal (st.bytes.take 8), toSigned64 (leVal ((st.bytes.drop 8).take 8))⟩,
     ⟨st.bytes.drop 16, st.eofbit, st.failbit⟩)

/-- ASCII whitespace for operator>> (isspace in the default C locale). -/
def isWsB (b : Nat) : Bool :=
  b == 32 || b == 9 || b == 10 || b == 11 || b == 12 || b == 13

/-- Word extraction part 2: take characters until whitespace or EOF; the
Bool is the eofbit (set when extraction stopped at end of stream). -/
def takeWordGo : List Nat → List Nat × List Nat × Bool
  | [] => ([], [], true)
  | b :: bs =>
    if isWsB b then ([], b :: bs, false)
    else
      let r := takeWordGo bs
      (b :: r.1, r.2.1, r.2.2)

/-- operator>>(istream, string): skip whitespace, then extract a word. -/
def extractWord : List Nat → List Nat × List Nat × Bool
  | [] => ([], [], true)
  | b :: bs => if isWsB b then extractWord bs else takeWordGo (b :: bs)

/-- std::stoul on a decimal word (base autodetection never changes the
value for the canonical digit strings the encoder emits). -/
def parseDec (w : List Nat) : Nat :=
  w.foldl (fun a d => a * 10 + (d - 48)) 0

/-- std::stol on a word, handling a leading minus sign. -/
def parseDecInt (w : List Nat) : Int :=
  match w with
  | 45 :: w2 => -(parseDec w2 : Int)
  | _ => (parseDec w : Int)

/-- next_token_ascii (rlzcommon.cpp 158-167): extract position_s, return
the sentinel if eof() is set after that extraction, else extract length_s
and convert both with stoul/stol. If the second extraction produced an
empty string (EOF hit while skipping whitespace), std::stol throws an
uncaught std::invalid_argument and the process dies on SIGABRT, modelled
as error 134. -/
def next_token_ascii (st : RState) : Except Nat (RLZToken × RState) :=
  let e1 := extractWord st.bytes
  if e1.2.2 then
    .ok (end_sentinel, ⟨e1.2.1, true, st.failbit || e1.1.isEmpty⟩)
  else
    let e2 := extractWord e1.2.1
    if e2.1.isEmpty then .error 134
    else .ok (⟨parseDec e1.1, parseDecInt e2.1⟩, ⟨e2.2.1, e2.2.2, st.failbit⟩)

/-- Field loop of next_token_vbyte (rlzcommon.cpp 175-224): while the shift
width is below the limit, read one byte (none at EOF models the get()
failure, returning the sentinel), accumulate 7 bits, stop on a byte with
the high bit clear. Returns the accumulated uint64 value, the final shift
width and the remaining bytes. -/
def vbReadField (limit : Nat) : List Nat → Nat → Nat → Option (Nat × Nat × List Nat)
  | [], sw, acc => if sw < limit then none else some (acc, sw, [])
  | b :: bs, sw, acc =>
    if sw < limit then
      if 128 ≤ b then
        vbReadField limit bs (sw + 7) ((acc + b % 128 * 2 ^ sw) % 2 ^ 64)
      else some ((acc + b * 2 ^ sw) % 2 ^ 64, sw, bs)
    else some (acc, sw, b :: bs)

/-- next_token_vbyte: read the start_pos field (shift limit 64, overflow
check shiftwidth > 64) and the length field (shift limit 63, overflow
check shiftwidth >= 63); an overflow produces the in-band error token
(0, -1); EOF during either field produces the sentinel. -/
def next_token_vbyte (st : RState) : RLZToken × RState :=
  match vbReadField 64 st.bytes 0 0 with
  | none => (end_sentinel, ⟨[], true, true⟩)
  | some (pos, sw, rest) =>
    if sw > 64 then (⟨0, -1⟩, ⟨rest, st.eofbit, st.failbit⟩)
    else
      match vbReadField 63 rest 0 0 with
      | none => (end_sentinel, ⟨[], true, true⟩)
      | some (len, sw2, rest2) =>
        if sw2 ≥ 63 then (⟨0, -1⟩, ⟨rest2, st.eofbit, st.failbit⟩)
        else (⟨pos, (len : Int)⟩, ⟨rest2, st.eofbit, st.failbit⟩)

/-- RLZInputReader::keep_going: stream neither at eof nor failed. -/
def keep_going (st : RState) : Bool := !(st.eofbit || st.failbit)

/-- RLZInputReader::next_token (rlzcommon.cpp 236-261): sentinel if the
stream is already at eof or failed, else dispatch on the format; in vbyte
mode the in-band error token (0, -1) aborts the process with
EXIT_INVALID_INPUT = 1, modelled as error 1. -/
def rlz_next_token (fmt : RLZFmt) (st : RState) : Except Nat (RLZToken × RState) :=
  if st.eofbit || st.failbit then .ok (end_sentinel, st)
  else
    match fmt with
    | .f32x2 => .ok (next_token_32x2 st)
    | .f64x2 => .ok (next_token_64x2 st)
    | .ascii => next_token_ascii st
    | .vbyte =>
      let r := next_token_vbyte st
      if r.1.start_pos == 0 && r.1.length == -1 then .error 1
      else .ok r

/-- Decode loop shared by the unparser read loop: read tokens while
keep_going holds and no sentinel was seen. One byte is consumed per token
at least, so the fuel supplied by decodeAll is sufficient. -/
def decodeGo (fmt : RLZFmt) : Nat → RState → Except Nat (List RLZToken)
  | 0, _ => .error 255
  | fuel + 1, st =>
    if keep_going st then
      match rlz_next_token fmt st with
      | .error e => .error e
      | .ok (tok, st1) =>
        if is_end_sentinel tok then .ok []
        else
          match decodeGo fmt fuel st1 with
          | .error e => .error e
          | .ok toks => .ok (tok :: toks)
    else .ok []

/-- Decode a whole byte stream into the token list before the sentinel. -/
def decodeAll (fmt : RLZFmt) (bytes : List Nat) : Except Nat (List RLZToken) :=
  decodeGo fmt (bytes.length + 1) ⟨bytes, false, false⟩

/-- Full pipeline of claim C1: parse, encode, decode, unparse with no
window; none on a parse failure or a decode abort. -/
def roundtrip (fmt : RLZFmt) (W : Nat) (D SA : List Nat) (g : Nat → Nat)
    (I : List Nat) : Option (List Nat) :=
  match parse D SA g I with
  | .error _ => none
  | .ok (toks, _) =>
    match decodeAll fmt (encodeAll fmt toks) with
    | .error _ => none
    | .ok toks2 => some ((unparse W D toks2 0 0).out)

/- ===================== Semantic notions ===================== -/

/-- The symbols a token stands for at the parse level: a literal carries one
symbol, a copy token the dictionary slice it names. -/
def tokSpan (D : List Nat) (t : RLZToken) : List Nat :=
  if t.length = 0 then [t.start_pos] else (D.drop t.start_pos).take t.length.toNat

/-- Well-formedness of an emitted token: nonnegative length, and a copy
token lies inside the dictionary. -/
def TokWF (D : List Nat) (t : RLZToken) : Prop :=
  0 ≤ t.length ∧ (0 < t.length → t.start_pos + t.length.toNat ≤ D.length)

/-- J is a suffix of I. -/
def SuffixOf (J I : List Nat) : Prop := ∃ ts, ts ++ J = I

theorem SuffixOf_sub {A B I : List Nat} (h : SuffixOf (A ++ B) I) : SuffixOf B I := by
  obtain ⟨ts, hts⟩ := h
  exact ⟨ts ++ A, by rw [List.append_assoc, hts]⟩

theorem SuffixOf_tail {x : Nat} {J I : List Nat} (h : SuffixOf (x :: J) I) :
    SuffixOf J I := by
  have : SuffixOf ([x] ++ J) I := by simpa using h
  exact SuffixOf_sub this

theorem SuffixOf_length {J I : List Nat} (h : SuffixOf J I) : J.length ≤ I.length := by
  obtain ⟨ts, hts⟩ := h
  have := congrArg List.length hts
  simp at this
  omega

/-- Lexicographic order on symbol lists, with the end of a list sorting
strictly below any symbol (the end-of-dictionary convention of the spec). -/
def lexLe : List Nat → List Nat → Prop
  | [], _ => True
  | _ :: _, [] => False
  | a :: as, b :: bs => a < b ∨ (a = b ∧ lexLe as bs)

def lexLeDec : (x y : List Nat) → Decidable (lexLe x y)
  | [], _ => isTrue (by simp [lexLe])
  | _ :: _, [] => isFalse (by simp [lexLe])
  | a :: as, b :: bs =>
    haveI : Decidable (lexLe as bs) := lexLeDec as bs
    decidable_of_iff (a < b ∨ (a = b ∧ lexLe as bs)) (by rw [lexLe])

instance (x y : List Nat) : Decidable (lexLe x y) := lexLeDec x y

/-- SA is a (weakly) sorted suffix array of D: the suffixes it denotes
appear in lexicographically nondecreasing order. Stated with bounded
quantifiers so that concrete instances are decidable. -/
def SortedSA (D SA : List Nat) : Prop :=
  ∀ j, j < SA.length → ∀ i, i < j + 1 →
    lexLe (D.drop (saN SA i)) (D.drop (saN SA j))

instance (D SA : List Nat) : Decidable (SortedSA D SA) := by
  unfold SortedSA
  infer_instance

/-- Two lists with a common prefix sandwich every list lying between them
in lexicographic order: that list carries the same prefix. -/
theorem lexLe_take_sandwich :
    ∀ (n : Nat) (x y z : List Nat), lexLe x y → lexLe y z →
      n ≤ x.length → x.take n = z.take n → y.take n = x.take n
  | 0, _, _, _, _, _, _, _ => by simp
  | n + 1, x, y, z, hxy, hyz, hlen, hxz => by
    match x, y, z with
    | a :: as, [], _ => exact absurd hxy (by simp [lexLe])
    | a :: as, b :: bs, [] => simp at hxz
    | a :: as, b :: bs, e :: es =>
      simp only [List.take_succ_cons, List.cons.injEq] at hxz ⊢
      obtain ⟨hae, hrest⟩ := hxz
      subst hae
      simp only [lexLe] at hxy hyz
      rcases hxy with hxy | ⟨hab, hxy⟩
      · rcases hyz with hyz | ⟨hba, _⟩
        · omega
        · omega
      · subst hab
        rcases hyz with hyz | ⟨_, hyz⟩
        · omega
        · exact ⟨rfl, lexLe_take_sandwich n as bs es hxy hyz
            (by simpa using hlen) hrest⟩

/-- Matching predicate: the first P.length symbols of the suffix of D at
SA[j] are exactly P. -/
def matchP (D SA : List Nat) (j : Int) (P : List Nat) : Prop :=
  (D.drop (saGetI SA j)).take P.length = P

theorem matchP_nil (D SA : List Nat) (j : Int) : matchP D SA j [] := by
  simp [matchP]

theorem dget_drop (D : List Nat) (p k : Nat) :
    (D.drop p).getD k 0 = dget D (p + k) := by
  simp only [dget, List.getD_eq_getElem?_getD, List.getElem?_drop]

theorem take_succ_getD (l : List Nat) (k : Nat) (h : k < l.length) :
    l.take (k + 1) = l.take k ++ [l.getD k 0] := by
  rw [List.take_succ, List.getD_eq_getElem l 0 h]
  congr 1
  simp [List.getElem?_eq_getElem h]

theorem take_eq_len {l P : List Nat} {n : Nat} (h : l.take n = P)
    (hn : P.length = n) : n ≤ l.length := by
  have := congrArg List.length h
  simp [hn] at this
  omega

theorem map_range_dget (D : List Nat) (p : Nat) :
    ∀ cnt : Nat, p + cnt ≤ D.length →
      (List.range cnt).map (fun i => dget D (p + i)) = (D.drop p).take cnt
  | 0, _ => by simp
  | cnt + 1, h => by
    have ih := map_range_dget D p cnt (by omega)
    have hcl : cnt < (D.drop p).length := by
      rw [List.length_drop]; omega
    rw [show cnt + 1 = cnt + 1 from rfl, List.range_succ, List.map_append, ih,
      take_succ_getD (D.drop p) cnt hcl, dget_drop]
    simp

theorem matchP_bound {D SA : List Nat} {j : Int} {P : List Nat}
    (h : matchP D SA j P) (hne : P ≠ []) :
    saGetI SA j + P.length ≤ D.length := by
  unfold matchP at h
  have hlen : P.length ≤ (D.drop (saGetI SA j)).length := take_eq_len h rfl
  rw [List.length_drop] at hlen
  have hpos : 0 < P.length := List.length_pos.mpr hne
  by_cases hp : saGetI SA j < D.length
  · omega
  · exfalso
    have : D.drop (saGetI SA j) = [] := List.drop_eq_nil_of_le (by omega)
    rw [this] at h
    simp at h
    exact hne h

theorem matchP_snoc {D SA : List Nat} {j : Int} {P : List Nat} {c : Nat}
    (h : matchP D SA j P) (hin : saGetI SA j + P.length < D.length)
    (hc : dget D (saGetI SA j + P.length) = c) :
    matchP D SA j (P ++ [c]) := by
  unfold matchP at h ⊢
  have hlt : P.length < (D.drop (saGetI SA j)).length := by
    rw [List.length_drop]; omega
  rw [List.length_append, List.length_singleton,
    take_succ_getD (D.drop (saGetI SA j)) P.length hlt, h, dget_drop, hc]

/-- The span of a token whose content matches P at a sorted position. -/
theorem matchP_between {D SA : List Nat} (hsort : SortedSA D SA)
    {i j k : Int} {Q : List Nat}
    (h0 : 0 ≤ i) (hij : i ≤ j) (hjk : j ≤ k) (hk : k ≤ (SA.length : Int) - 1)
    (hi : matchP D SA i Q) (hkk : matchP D SA k Q) : matchP D SA j Q := by
  unfold matchP at hi hkk ⊢
  have hklen : k.toNat < SA.length := by omega
  have h1 : lexLe (D.drop (saN SA i.toNat)) (D.drop (saN SA j.toNat)) :=
    hsort j.toNat (by omega) i.toNat (by omega)
  have h2 : lexLe (D.drop (saN SA j.toNat)) (D.drop (saN SA k.toNat)) :=
    hsort k.toNat (by omega) j.toNat (by omega)
  have hsa : ∀ m : Int, saGetI SA m = saN SA m.toNat := fun m => rfl
  rw [hsa] at hi hkk ⊢
  have hxlen : Q.length ≤ (D.drop (saN SA i.toNat)).length := take_eq_len hi rfl
  have := lexLe_take_sandwich Q.length
    (D.drop (saN SA i.toNat)) (D.drop (saN SA j.toNat)) (D.drop (saN SA k.toNat))
    h1 h2 hxlen (by rw [hi, hkk])
  rw [this, hi]

/- ===================== Binary search lemmas ===================== -/

theorem searchLeftGo_found (D SA : List Nat) (c off : Nat) (oldL : Int) :
    ∀ (fuel : Nat) (l r res : Int),
      searchLeftGo D SA c off oldL fuel l r = res → 0 ≤ l → 0 ≤ res →
      l ≤ res ∧ res ≤ r ∧ saGetI SA res + off < D.length ∧
        dget D (saGetI SA res + off) = c
  | 0, l, r, res => fun heq h0 hres => by
    simp only [searchLeftGo] at heq
    omega
  | fuel + 1, l, r, res => fun heq h0 hres => by
    simp only [searchLeftGo] at heq
    by_cases hlr : l ≤ r
    · rw [if_pos hlr] at heq
      have hm1 : l ≤ (l + r) / 2 := by omega
      have hm2 : (l + r) / 2 ≤ r := by omega
      by_cases hend : saGetI SA ((l + r) / 2) + off ≥ D.length
      · rw [if_pos hend] at heq
        have h := searchLeftGo_found D SA c off oldL fuel ((l + r) / 2 + 1) r res
          heq (by omega) hres
        exact ⟨by omega, h.2.1, h.2.2.1, h.2.2.2⟩
      · rw [if_neg hend] at heq
        by_cases hlt : dget D (saGetI SA ((l + r) / 2) + off) < c
        · rw [if_pos hlt] at heq
          have h := searchLeftGo_found D SA c off oldL fuel ((l + r) / 2 + 1) r res
            heq (by omega) hres
          exact ⟨by omega, h.2.1, h.2.2.1, h.2.2.2⟩
        · rw [if_neg hlt] at heq
          by_cases hgt : c < dget D (saGetI SA ((l + r) / 2) + off)
          · rw [if_pos hgt] at heq
            have h := searchLeftGo_found D SA c off oldL fuel l ((l + r) / 2 - 1) res
              heq h0 hres
            exact ⟨h.1, by omega, h.2.2.1, h.2.2.2⟩
          · rw [if_neg hgt] at heq
            have heqc : dget D (saGetI SA ((l + r) / 2) + off) = c := by omega
            by_cases hold : (l + r) / 2 = oldL
            · rw [if_pos hold] at heq
              subst heq
              exact ⟨by omega, by omega, by omega, heqc⟩
            · rw [if_neg hold] at heq
              by_cases hend1 : saGetI SA ((l + r) / 2 - 1) + off ≥ D.length
              · rw [if_pos hend1] at heq
                subst heq
                exact ⟨by omega, by omega, by omega, heqc⟩
              · rw [if_neg hend1] at heq
                by_cases heq1 : dget D (saGetI SA ((l + r) / 2 - 1) + off) =
                    dget D (saGetI SA ((l + r) / 2) + off)
                · rw [if_pos heq1] at heq
                  have h := searchLeftGo_found D SA c off oldL fuel l
                    ((l + r) / 2 - 1) res heq h0 hres
                  exact ⟨h.1, by omega, h.2.2.1, h.2.2.2⟩
                · rw [if_neg heq1] at heq
                  subst heq
                  exact ⟨by omega, by omega, by omega, heqc⟩
    · rw [if_neg hlr] at heq
      omega

/-- The comparison key the binary searches use at column off of a list:
end-of-list sorts strictly below every symbol (encoded as 0, a symbol s as
s + 1). -/
def keyAtL (l : List Nat) (n : Nat) : Nat :=
  if n < l.length then l.getD n 0 + 1 else 0

/-- The comparison key at suffix-array slot j, column off. -/
def keyAt (D : List Nat) (off : Nat) (SA : List Nat) (j : Int) : Nat :=
  if saGetI SA j + off < D.length then dget D (saGetI SA j + off) + 1 else 0

theorem keyAt_eq (D SA : List Nat) (off : Nat) (j : Int) :
    keyAt D off SA j = keyAtL (D.drop (saGetI SA j)) off := by
  unfold keyAt keyAtL
  rw [List.length_drop, dget_drop]
  by_cases h : saGetI SA j + off < D.length
  · rw [if_pos h, if_pos (by omega)]
  · rw [if_neg h, if_neg (by omega)]

theorem lexLe_keyAtL :
    ∀ (n : Nat) (x y : List Nat), lexLe x y → x.take n = y.take n →
      keyAtL x n ≤ keyAtL y n
  | n, [], y => fun _ _ => by simp [keyAtL]
  | n, a :: as, [] => fun hxy _ => absurd hxy (by simp [lexLe])
  | 0, a :: as, b :: bs => fun hxy _ => by
    simp only [lexLe] at hxy
    simp only [keyAtL, List.length_cons, List.getD]
    have : a ≤ b := by omega
    simp [List.getElem?_cons_zero]
    omega
  | n + 1, a :: as, b :: bs => fun hxy htake => by
    simp only [List.take_succ_cons, List.cons.injEq] at htake
    obtain ⟨hab, htk⟩ := htake
    subst hab
    simp only [lexLe] at hxy
    have h2 : lexLe as bs := by
      rcases hxy with h | ⟨_, h⟩
      · omega
      · exact h
    have := lexLe_keyAtL n as bs h2 htk
    simpa [keyAtL, Nat.succ_lt_succ_iff] using this

/-- Over a block of suffix-array slots that all carry the prefix P, the
comparison key in column P.length is monotone (consequence of sortedness). -/
theorem key_monotone {D SA : List Nat} {L R : Int} {P : List Nat}
    (hsort : SortedSA D SA)
    (hrange : ∀ j : Int, L ≤ j → j ≤ R → matchP D SA j P)
    (hL : 0 ≤ L) (hR : R ≤ (SA.length : Int) - 1) :
    ∀ j1 j2 : Int, L ≤ j1 → j1 ≤ j2 → j2 ≤ R →
      keyAt D P.length SA j1 ≤ keyAt D P.length SA j2 := by
  intro j1 j2 h1 h12 h2
  have m1 := hrange j1 h1 (by omega)
  have m2 := hrange j2 (by omega) h2
  have hlex : lexLe (D.drop (saN SA j1.toNat)) (D.drop (saN SA j2.toNat)) :=
    hsort j2.toNat (by omega) j1.toNat (by omega)
  rw [keyAt_eq, keyAt_eq]
  exact lexLe_keyAtL P.length _ _ hlex (by
    unfold matchP at m1 m2
    show (D.drop (saGetI SA j1)).take P.length = (D.drop (saGetI SA j2)).take P.length
    rw [m1, m2])

/-- Completeness of the search_right loop: over a key-monotone block that
contains a match, with the right-edge invariant of the loop, the loop
returns a matching index inside the current bounds. -/
theorem searchRightGo_complete (D SA : List Nat) (c off : Nat) (l0 r0 : Int)
    (hmono : ∀ j1 j2 : Int, l0 ≤ j1 → j1 ≤ j2 → j2 ≤ r0 →
      keyAt D off SA j1 ≤ keyAt D off SA j2) :
    ∀ (fuel : Nat) (l r : Int),
      (r + 1 - l).toNat < fuel → l0 ≤ l → r ≤ r0 →
      (∃ j : Int, l ≤ j ∧ j ≤ r ∧ keyAt D off SA j = c + 1) →
      (r = r0 ∨ (r + 1 ≤ r0 ∧ c + 1 < keyAt D off SA (r + 1))) →
      l ≤ searchRightGo D SA c off r0 fuel l r ∧
        searchRightGo D SA c off r0 fuel l r ≤ r ∧
        keyAt D off SA (searchRightGo D SA c off r0 fuel l r) = c + 1
  | 0, l, r => fun hfuel _ _ hwit _ => by
    obtain ⟨j, hj1, hj2, _⟩ := hwit
    omega
  | fuel + 1, l, r => fun hfuel hl0 hr0 hwit hrinv => by
    obtain ⟨j, hj1, hj2, hjk⟩ := hwit
    have hlr : l ≤ r := by omega
    simp only [searchRightGo, if_pos hlr]
    have hm1 : l ≤ (l + r) / 2 := by omega
    have hm2 : (l + r) / 2 ≤ r := by omega
    set mid := (l + r) / 2 with hmid
    by_cases hend : saGetI SA mid + off ≥ D.length
    · rw [if_pos hend]
      have hkmid : keyAt D off SA mid = 0 := by
        unfold keyAt; rw [if_neg (by omega)]
      have hwit2 : mid + 1 ≤ j := by
        by_contra hcon
        have : keyAt D off SA j ≤ keyAt D off SA mid :=
          hmono j mid (by omega) (by omega) (by omega)
        omega
      have := searchRightGo_complete D SA c off l0 r0 hmono fuel (mid + 1) r
        (by omega) (by omega) hr0 ⟨j, by omega, hj2, hjk⟩ hrinv
      exact ⟨by omega, this.2.1, this.2.2⟩
    · rw [if_neg hend]
      have hkmid : keyAt D off SA mid = dget D (saGetI SA mid + off) + 1 := by
        unfold keyAt; rw [if_pos (by omega)]
      by_cases hlt : dget D (saGetI SA mid + off) < c
      · rw [if_pos hlt]
        have hwit2 : mid + 1 ≤ j := by
          by_contra hcon
          have : keyAt D off SA j ≤ keyAt D off SA mid :=
            hmono j mid (by omega) (by omega) (by omega)
          omega
        have := searchRightGo_complete D SA c off l0 r0 hmono fuel (mid + 1) r
          (by omega) (by omega) hr0 ⟨j, by omega, hj2, hjk⟩ hrinv
        exact ⟨by omega, this.2.1, this.2.2⟩
      · rw [if_neg hlt]
        by_cases hgt : c < dget D (saGetI SA mid + off)
        · rw [if_pos hgt]
          have hwit2 : j ≤ mid - 1 := by
            by_contra hcon
            have : keyAt D off SA mid ≤ keyAt D off SA j :=
              hmono mid j (by omega) (by omega) (by omega)
            omega
          have := searchRightGo_complete D SA c off l0 r0 hmono fuel l (mid - 1)
            (by omega) hl0 (by omega) ⟨j, hj1, by omega, hjk⟩
            (Or.inr ⟨by omega, by
              have hrw : mid - 1 + 1 = mid := by omega
              rw [hrw]; omega⟩)
          exact ⟨this.1, by omega, this.2.2⟩
        · rw [if_neg hgt]
          have heqc : dget D (saGetI SA mid + off) = c := by omega
          by_cases hold : mid = r0
          · rw [if_pos hold]
            exact ⟨hm1, hm2, by omega⟩
          · rw [if_neg hold]
            by_cases hend1 : saGetI SA (mid + 1) + off ≥ D.length
            · rw [if_pos hend1]
              exact ⟨hm1, hm2, by omega⟩
            · rw [if_neg hend1]
              by_cases heq1 : dget D (saGetI SA (mid + 1) + off) =
                  dget D (saGetI SA mid + off)
              · rw [if_pos heq1]
                have hk1 : keyAt D off SA (mid + 1) = c + 1 := by
                  unfold keyAt
                  rw [if_pos (by omega)]
                  omega
                have hmidr : mid < r := by
                  rcases hrinv with h | ⟨h1, h2⟩
                  · omega
                  · by_contra hcon
                    have hmr : mid + 1 = r + 1 := by omega
                    rw [hmr] at hk1
                    omega
                have := searchRightGo_complete D SA c off l0 r0 hmono fuel
                  (mid + 1) r (by omega) (by omega) hr0
                  ⟨mid + 1, by omega, by omega, hk1⟩ hrinv
                exact ⟨by omega, this.2.1, this.2.2⟩
              · rw [if_neg heq1]
                exact ⟨hm1, hm2, by omega⟩

theorem searchLeftGo_notfound (D SA : List Nat) (c off : Nat) (oldL : Int) :
    ∀ (fuel : Nat) (l r : Int), 0 ≤ l →
      (∀ j : Int, l ≤ j → j ≤ r →
        ¬(saGetI SA j + off < D.length ∧ dget D (saGetI SA j + off) = c)) →
      searchLeftGo D SA c off oldL fuel l r < 0
  | 0, l, r => fun h0 _ => by
    simp only [searchLeftGo]
    omega
  | fuel + 1, l, r => fun h0 hno => by
    simp only [searchLeftGo]
    by_cases hlr : l ≤ r
    · rw [if_pos hlr]
      have hm1 : l ≤ (l + r) / 2 := by omega
      have hm2 : (l + r) / 2 ≤ r := by omega
      set mid := (l + r) / 2 with hmid
      by_cases hend : saGetI SA mid + off ≥ D.length
      · rw [if_pos hend]
        exact searchLeftGo_notfound D SA c off oldL fuel (mid + 1) r (by omega)
          (fun j hj1 hj2 => hno j (by omega) hj2)
      · rw [if_neg hend]
        by_cases hlt : dget D (saGetI SA mid + off) < c
        · rw [if_pos hlt]
          exact searchLeftGo_notfound D SA c off oldL fuel (mid + 1) r (by omega)
            (fun j hj1 hj2 => hno j (by omega) hj2)
        · rw [if_neg hlt]
          by_cases hgt : c < dget D (saGetI SA mid + off)
          · rw [if_pos hgt]
            exact searchLeftGo_notfound D SA c off oldL fuel l (mid - 1) h0
              (fun j hj1 hj2 => hno j hj1 (by omega))
          · exact absurd ⟨by omega, by omega⟩ (hno mid hm1 hm2)
    · rw [if_neg hlr]
      omega

/-- search_left wrapper soundness: a nonnegative result lies in the given
bounds and matches the symbol at the given column. -/
theorem search_left_found {D SA : List Nat} {c off : Nat} {L R res : Int}
    (heq : search_left D SA c off L R = res) (h0 : 0 ≤ L) (hres : 0 ≤ res) :
    L ≤ res ∧ res ≤ R ∧ saGetI SA res + off < D.length ∧
      dget D (saGetI SA res + off) = c :=
  searchLeftGo_found D SA c off L ((R + 1 - L).toNat + 1) L R res heq h0 hres

/-- search_right wrapper completeness over a key-monotone range containing
a match. -/
theorem search_right_complete {D SA : List Nat} {c off : Nat} {L R : Int}
    (hmono : ∀ j1 j2 : Int, L ≤ j1 → j1 ≤ j2 → j2 ≤ R →
      keyAt D off SA j1 ≤ keyAt D off SA j2)
    (hwit : ∃ j : Int, L ≤ j ∧ j ≤ R ∧ keyAt D off SA j = c + 1) :
    L ≤ search_right D SA c off L R ∧ search_right D SA c off L R ≤ R ∧
      keyAt D off SA (search_right D SA c off L R) = c + 1 :=
  searchRightGo_complete D SA c off L R hmono ((R + 1 - L).toNat + 1) L R
    (by omega) (by omega) (by omega) hwit (Or.inl rfl)

/- ===================== Parser state invariant ===================== -/

/-- Invariant tying a parser input state to the original input I (with n =
I.length the source_file_size_symbols): the pending symbols are a suffix of
I; eof implies the stream is drained with no unget; the read_counter counts
the consumed symbols, overshooting once eof has been hit. -/
def PInv (I : List Nat) (st : PState) : Prop :=
  SuffixOf (pend st) I ∧
  (st.eofFlag = true → st.rest = [] ∧ st.ungetBuf = none) ∧
  (st.eofFlag = false → st.rc = (I.length : Int) - (pend st).length) ∧
  (st.eofFlag = true → (I.length : Int) + 1 ≤ st.rc)

theorem PInv_init (I : List Nat) : PInv I ⟨I, false, none, 0, false⟩ := by
  refine ⟨⟨[], rfl⟩, by simp, ?_, by simp⟩
  intro _
  simp [pend]

theorem pend_ne_eof {I : List Nat} {st : PState} (hinv : PInv I st)
    {x : Nat} {P2 : List Nat} (hp : pend st = x :: P2) : st.eofFlag = false := by
  obtain ⟨_, h2, _, _⟩ := hinv
  by_cases he : st.eofFlag
  · obtain ⟨hr, hu⟩ := h2 he
    rw [pend, hu, hr] at hp
    cases hp
  · simpa using he

/-- Reading a pending symbol: getnext yields the head, the new state keeps
the invariant, the unget buffer is empty, eof stays clear. -/
theorem getnext_cons {I : List Nat} {st : PState} {x : Nat} {P2 : List Nat}
    (hinv : PInv I st) (hp : pend st = x :: P2) :
    (getnext st).1 = x ∧
    pend (getnext st).2 = P2 ∧
    (getnext st).2.eofFlag = false ∧
    (getnext st).2.ungetBuf = none ∧
    (getnext st).2.rc = st.rc + 1 ∧
    (getnext st).2.oob = st.oob ∧
    PInv I (getnext st).2 := by
  have heof : st.eofFlag = false := pend_ne_eof hinv hp
  obtain ⟨hsuf, h2, h3, h4⟩ := hinv
  have hrc := h3 heof
  obtain ⟨rest, eof, ub, rc, oob⟩ := st
  simp only at heof hrc ⊢
  subst heof
  cases ub with
  | some s =>
    simp only [pend] at hp hsuf hrc
    injection hp with h1 h1t
    subst h1
    subst h1t
    simp only [getnext, pend]
    refine ⟨by trivial, by trivial, by trivial, by trivial, by trivial, by trivial,
      SuffixOf_tail hsuf, by simp, ?_, by simp⟩
    intro _
    simp only [pend]
    simp only [List.length_cons] at hrc
    push_cast at hrc ⊢
    omega
  | none =>
    simp only [pend] at hp hsuf hrc
    subst hp
    simp only [getnext, pend]
    refine ⟨by trivial, by trivial, by trivial, by trivial, by trivial, by trivial,
      SuffixOf_tail hsuf, by simp, ?_, by simp⟩
    intro _
    simp only [pend]
    simp only [List.length_cons] at hrc
    push_cast at hrc ⊢
    omega

/-- Reading past the end: getnext returns the zero buffer, sets eof, keeps
the invariant. -/
theorem getnext_nil {I : List Nat} {st : PState}
    (hinv : PInv I st) (hp : pend st = []) :
    (getnext st).2.eofFlag = true ∧
    pend (getnext st).2 = [] ∧
    (getnext st).2.ungetBuf = none ∧
    (getnext st).2.rc = st.rc + 1 ∧
    (getnext st).2.oob = st.oob ∧
    PInv I (getnext st).2 := by
  obtain ⟨hsuf, h2, h3, h4⟩ := hinv
  obtain ⟨rest, eof, ub, rc, oob⟩ := st
  cases ub with
  | some s => simp only [pend] at hp; cases hp
  | none =>
    simp only [pend] at hp h3 h4 hsuf
    subst hp
    simp only [getnext, pend]
    refine ⟨by trivial, by simp [pend], by trivial, by trivial, by trivial,
      ⟨I, by simp [pend]⟩, by simp, by simp, ?_⟩
    intro _
    cases eof with
    | true =>
      have := h4 rfl
      show (I.length : Int) + 1 ≤ rc + 1
      omega
    | false =>
      have := h3 rfl
      simp at this
      show (I.length : Int) + 1 ≤ rc + 1
      omega

/-- unget of a just-read symbol restores the invariant with that symbol
back at the front of the pending list. -/
theorem unget_inv {I : List Nat} {st : PState} {c : Nat}
    (hinv : PInv I st) (heof : st.eofFlag = false) (hu : st.ungetBuf = none)
    (hsuf : SuffixOf (c :: pend st) I) :
    pend (unget c st) = c :: pend st ∧
    (unget c st).eofFlag = false ∧
    (unget c st).rc = st.rc - 1 ∧
    (unget c st).oob = st.oob ∧
    PInv I (unget c st) := by
  obtain ⟨_, h2, h3, h4⟩ := hinv
  have hrc := h3 heof
  obtain ⟨rest, eof, ub, rc, oob⟩ := st
  simp only at heof hu
  subst heof
  subst hu
  simp only [pend, unget] at hsuf hrc ⊢
  refine ⟨by trivial, by trivial, by trivial, by trivial, hsuf, by simp, ?_, by simp⟩
  intro _
  simp only [pend, List.length_cons]
  push_cast at hrc ⊢
  omega

theorem getnext_oob (st : PState) : (getnext st).2.oob = st.oob := by
  obtain ⟨rest, eof, ub, rc, oob⟩ := st
  cases ub with
  | some s => rfl
  | none => cases rest with
    | nil => rfl
    | cons x xs => rfl

theorem getnext_rc (st : PState) : (getnext st).2.rc = st.rc + 1 := by
  obtain ⟨rest, eof, ub, rc, oob⟩ := st
  cases ub with
  | some s => rfl
  | none => cases rest with
    | nil => rfl
    | cons x xs => rfl

theorem fastLoopGo_oob (D : List Nat) (g : Nat → Nat) (n : Int) (startP : Nat) :
    ∀ (fuel offset : Nat) (c : Nat) (st : PState), st.oob = true →
      ((fastLoopGo D g n startP fuel offset c st).2).oob = true
  | 0, offset, c, st => fun h => h
  | fuel + 1, offset, c, st => fun h => by
    simp only [fastLoopGo]
    by_cases hrc : st.rc ≤ n
    · rw [if_pos hrc]
      have h1 : (if startP + offset < D.length then st
          else { st with oob := true }).oob = true := by
        split <;> simp [h]
      by_cases hcd : c ≠ dictRead D g (startP + offset)
      · rw [if_pos hcd]
        simpa [unget] using h1
      · rw [if_neg hcd]
        exact fastLoopGo_oob D g n startP fuel (offset + 1) _ _
          (by rw [getnext_oob]; exact h1)
    · rw [if_neg hrc]
      exact h

theorem fastLoopGo_stop (D : List Nat) (g : Nat → Nat) (n : Int) (startP : Nat)
    (fuel offset : Nat) (c : Nat) (st : PState) (h : n < st.rc) :
    fastLoopGo D g n startP fuel offset c st = (⟨startP, (offset : Int)⟩, st) := by
  cases fuel with
  | zero => rfl
  | succ fuel => simp only [fastLoopGo, if_neg (by omega : ¬st.rc ≤ n)]

theorem tokenLoopGo_oob (D SA : List Nat) (g : Nat → Nat) (n : Int) :
    ∀ (fuel offset : Nat) (L R bp bl : Int) (msf : Bool) (c : Nat) (st : PState)
      (tok : RLZToken) (st1 : PState), st.oob = true →
      tokenLoopGo D SA g n fuel offset L R bp bl msf c st = .ok (tok, st1) →
      st1.oob = true
  | 0, offset, L, R, bp, bl, msf, c, st, tok, st1 => fun h heq => by
    simp only [tokenLoopGo] at heq
    split at heq
    · cases heq; exact h
    · cases heq
  | fuel + 1, offset, L, R, bp, bl, msf, c, st, tok, st1 => fun h heq => by
    simp only [tokenLoopGo] at heq
    by_cases hrc : st.rc ≤ n
    · rw [if_pos hrc] at heq
      by_cases heoi : end_of_input st
      · rw [if_pos heoi] at heq
        cases heq; exact h
      · rw [if_neg heoi] at heq
        by_cases hL : search_left D SA c offset L R < 0
        · rw [if_pos hL] at heq
          cases msf with
          | true => simp at heq; cases heq.2; simpa [unget] using h
          | false => simp at heq; cases heq.2; exact h
        · rw [if_neg hL] at heq
          by_cases hR : search_right D SA c offset (search_left D SA c offset L R) R < 0
          · rw [if_pos hR] at heq
            cases heq
          · rw [if_neg hR] at heq
            by_cases hLR : search_left D SA c offset L R =
                search_right D SA c offset (search_left D SA c offset L R) R
            · rw [if_pos hLR] at heq
              rw [Except.ok.injEq] at heq
              have h3 := congrArg Prod.snd heq
              simp only at h3
              rw [← h3]
              unfold fastLoop
              exact fastLoopGo_oob D g n
                (saGetI SA (search_left D SA c offset L R))
                ((n + 1 - st.rc).toNat + 1) offset c st h
            · rw [if_neg hLR] at heq
              by_cases heoi2 : end_of_input (getnext st).2
              · rw [if_pos heoi2] at heq
                cases heq
                rw [getnext_oob]; exact h
              · rw [if_neg heoi2] at heq
                exact tokenLoopGo_oob D SA g n fuel (offset + 1) _ _ _ _ true
                  (getnext st).1 (getnext st).2 tok st1
                  (by rw [getnext_oob]; exact h) heq
    · rw [if_neg hrc] at heq
      split at heq
      · cases heq; exact h
      · cases heq

/-- Behaviour of the fast-path loop: starting from a state where Q (the
first offset symbols along the suffix at startP) has been consumed plus
the symbol c in hand, and provided no out-of-bounds dictionary read
happened (final oob flag still clear), the loop returns the token
(startP, m) covering exactly the consumed symbols. -/
theorem fastLoopGo_spec (D : List Nat) (g : Nat → Nat) (I : List Nat) :
    ∀ (fuel offset : Nat) (c : Nat) (st : PState) (startP : Nat) (Q : List Nat)
      (tok : RLZToken) (st1 : PState),
    PInv I st → st.eofFlag = false → st.ungetBuf = none → st.oob = false →
    SuffixOf (Q ++ c :: pend st) I →
    Q.length = offset →
    (D.drop startP).take offset = Q →
    startP + offset ≤ D.length →
    ((I.length : Int) - st.rc).toNat < fuel →
    fastLoopGo D g (I.length : Int) startP fuel offset c st = (tok, st1) →
    st1.oob = false →
    PInv I st1 ∧ ∃ m : Nat, tok = ⟨startP, (m : Int)⟩ ∧ offset ≤ m ∧
      startP + m ≤ D.length ∧
      (D.drop startP).take m ++ pend st1 = Q ++ c :: pend st
  | 0, offset, c, st, startP, Q, tok, st1 =>
      fun _ _ _ _ _ _ _ _ hfuel _ _ => by omega
  | fuel + 1, offset, c, st, startP, Q, tok, st1 =>
      fun hinv heof hub hoob hsuf hQlen htake hbound hfuel heq hoob1 => by
    have hrc : st.rc = (I.length : Int) - (pend st).length := hinv.2.2.1 heof
    have hcsuf : SuffixOf (c :: pend st) I := SuffixOf_sub hsuf
    have hplen : (pend st).length ≤ I.length :=
      SuffixOf_length (SuffixOf_tail hcsuf)
    simp only [fastLoopGo] at heq
    rw [if_pos (by omega : st.rc ≤ (I.length : Int))] at heq
    by_cases hin : startP + offset < D.length
    · rw [if_pos hin] at heq
      have hd : dictRead D g (startP + offset) = dget D (startP + offset) := by
        simp [dictRead, hin]
      by_cases hcd : c ≠ dictRead D g (startP + offset)
      · rw [if_pos hcd] at heq
        obtain ⟨htok, hst⟩ := Prod.mk.injEq .. ▸ heq
        obtain ⟨hpend1, heof1, hrc1, hoob1e, hinv1⟩ := unget_inv hinv heof hub hcsuf
        subst hst
        refine ⟨hinv1, offset, htok.symm, le_refl _, by omega, ?_⟩
        rw [htake, hpend1]
      · rw [if_neg hcd] at heq
        push_neg at hcd
        rw [hd] at hcd
        have htake1 : (D.drop startP).take (offset + 1) = Q ++ [c] := by
          rw [take_succ_getD (D.drop startP) offset
            (by rw [List.length_drop]; omega), htake, dget_drop, ← hcd]
        cases hp : pend st with
        | nil =>
          obtain ⟨heof2, hpend2, hub2, hrc2, hoob2, hinv2⟩ := getnext_nil hinv hp
          rw [fastLoopGo_stop D g (I.length : Int) startP fuel (offset + 1)
            (getnext st).1 (getnext st).2
            (by rw [hrc2]; rw [hp] at hrc; simp at hrc; omega)] at heq
          obtain ⟨htok, hst⟩ := Prod.mk.injEq .. ▸ heq
          subst hst
          refine ⟨hinv2, offset + 1, htok.symm, by omega, by omega, ?_⟩
          simp [htake1, hpend2, hp]
        | cons x P2 =>
          obtain ⟨hc2, hpend2, heof2, hub2, hrc2, hoob2, hinv2⟩ := getnext_cons hinv hp
          have ih := fastLoopGo_spec D g I fuel (offset + 1) (getnext st).1
            (getnext st).2 startP (Q ++ [c]) tok st1 hinv2 heof2 hub2
            (by rw [hoob2]; exact hoob)
            (by
              rw [hc2, hpend2]
              have : Q ++ [c] ++ x :: P2 = Q ++ c :: pend st := by
                rw [hp]; simp
              rw [this]; exact hsuf)
            (by simp [hQlen])
            htake1 (by omega)
            (by
              rw [hrc2]
              rw [hp] at hrc
              simp only [List.length_cons] at hrc
              push_cast at hrc
              omega)
            heq hoob1
          obtain ⟨hinv3, m, htok3, hm3, hb3, hid3⟩ := ih
          refine ⟨hinv3, m, htok3, by omega, hb3, ?_⟩
          rw [hid3]
          simp [hc2, hpend2, hp]
    · rw [if_neg hin] at heq
      exfalso
      have hflag : ({ st with oob := true } : PState).oob = true := rfl
      by_cases hcd : c ≠ dictRead D g (startP + offset)
      · rw [if_pos hcd] at heq
        obtain ⟨_, hst⟩ := Prod.mk.injEq .. ▸ heq
        rw [← hst] at hoob1
        simp [unget] at hoob1
      · rw [if_neg hcd] at heq
        have := fastLoopGo_oob D g (I.length : Int) startP fuel (offset + 1)
          (getnext { st with oob := true }).1 (getnext { st with oob := true }).2
          (by rw [getnext_oob])
        rw [heq] at this
        rw [this] at hoob1
        cases hoob1

/-- The fast path entered from the token loop: the first comparison is
known to match (the search put c at dictionary column offset of the
suffix), so the emitted token is strictly longer than offset. -/
theorem fastLoop_spec (D : List Nat) (g : Nat → Nat) (I : List Nat)
    (offset : Nat) (c : Nat) (st : PState) (startP : Nat) (Q : List Nat)
    (tok : RLZToken) (st1 : PState)
    (hinv : PInv I st) (heof : st.eofFlag = false) (hub : st.ungetBuf = none)
    (hoob : st.oob = false)
    (hsuf : SuffixOf (Q ++ c :: pend st) I)
    (hQlen : Q.length = offset)
    (htake : (D.drop startP).take offset = Q)
    (hin : startP + offset < D.length)
    (hc : dget D (startP + offset) = c)
    (heq : fastLoop D g (I.length : Int) startP offset c st = (tok, st1))
    (hoob1 : st1.oob = false) :
    PInv I st1 ∧ ∃ m : Nat, tok = ⟨startP, (m : Int)⟩ ∧ offset < m ∧
      startP + m ≤ D.length ∧
      (D.drop startP).take m ++ pend st1 = Q ++ c :: pend st := by
  have hrc : st.rc = (I.length : Int) - (pend st).length := hinv.2.2.1 heof
  have hcsuf : SuffixOf (c :: pend st) I := SuffixOf_sub hsuf
  have hplen : (pend st).length ≤ I.length :=
    SuffixOf_length (SuffixOf_tail hcsuf)
  unfold fastLoop at heq
  simp only [fastLoopGo] at heq
  rw [if_pos (by omega : st.rc ≤ (I.length : Int))] at heq
  rw [if_pos hin] at heq
  have hd : dictRead D g (startP + offset) = dget D (startP + offset) := by
    simp [dictRead, hin]
  rw [if_neg (by rw [hd, hc]; simp : ¬c ≠ dictRead D g (startP + offset))] at heq
  have htake1 : (D.drop startP).take (offset + 1) = Q ++ [c] := by
    rw [take_succ_getD (D.drop startP) offset
      (by rw [List.length_drop]; omega), htake, dget_drop, hc]
  cases hp : pend st with
  | nil =>
    obtain ⟨heof2, hpend2, hub2, hrc2, hoob2, hinv2⟩ := getnext_nil hinv hp
    rw [fastLoopGo_stop D g (I.length : Int) startP ((I.length : Int) + 1 - st.rc).toNat
      (offset + 1) (getnext st).1 (getnext st).2
      (by rw [hrc2]; rw [hp] at hrc; simp at hrc; omega)] at heq
    obtain ⟨htok, hst⟩ := Prod.mk.injEq .. ▸ heq
    subst hst
    refine ⟨hinv2, offset + 1, htok.symm, by omega, by omega, ?_⟩
    simp [htake1, hpend2, hp]
  | cons x P2 =>
    obtain ⟨hc2, hpend2, heof2, hub2, hrc2, hoob2, hinv2⟩ := getnext_cons hinv hp
    have ih := fastLoopGo_spec D g I ((I.length : Int) + 1 - st.rc).toNat
      (offset + 1) (getnext st).1 (getnext st).2 startP (Q ++ [c]) tok st1
      hinv2 heof2 hub2 (by rw [hoob2]; exact hoob)
      (by
        rw [hc2, hpend2]
        have hxx : Q ++ [c] ++ x :: P2 = Q ++ c :: pend st := by
          rw [hp]; simp
        rw [hxx]; exact hsuf)
      (by simp [hQlen])
      htake1 (by omega)
      (by
        rw [hrc2]
        rw [hp] at hrc
        simp only [List.length_cons] at hrc
        push_cast at hrc
        omega)
      heq hoob1
    obtain ⟨hinv3, m, htok3, hm3, hb3, hid3⟩ := ih
    refine ⟨hinv3, m, htok3, by omega, hb3, ?_⟩
    rw [hid3]
    simp [hc2, hpend2, hp]

/-- Main specification of one run of the token-finding loop: under the
sortedness of SA and the loop invariant (P consumed for this token so far,
all slots in [L, R] matching P, the best-match bookkeeping), a successful
run with no out-of-bounds read emits a non-sentinel token whose span is
exactly the input consumed for it. -/
theorem tokenLoopGo_spec (D SA : List Nat) (g : Nat → Nat) (I : List Nat)
    (hsort : SortedSA D SA) :
    ∀ (fuel offset : Nat) (L R bp bl : Int) (msf : Bool) (c : Nat) (st : PState)
      (P : List Nat) (tok : RLZToken) (st1 : PState),
    PInv I st → st.eofFlag = false → st.ungetBuf = none → st.oob = false →
    SuffixOf (P ++ c :: pend st) I →
    P.length = offset →
    0 ≤ L → R ≤ (SA.length : Int) - 1 →
    (∀ j : Int, L ≤ j → j ≤ R → matchP D SA j P) →
    (msf = true → bl = (offset : Int) ∧ 1 ≤ offset ∧ matchP D SA bp P) →
    (msf = false → P = []) →
    ((I.length : Int) - st.rc).toNat < fuel →
    tokenLoopGo D SA g (I.length : Int) fuel offset L R bp bl msf c st
      = .ok (tok, st1) →
    st1.oob = false →
    PInv I st1 ∧ is_end_sentinel tok = false ∧ TokWF D tok ∧
      tokSpan D tok ++ pend st1 = P ++ c :: pend st
  | 0, offset, L, R, bp, bl, msf, c, st, P, tok, st1 =>
      fun _ _ _ _ _ _ _ _ _ _ _ hfuel _ _ => by omega
  | fuel + 1, offset, L, R, bp, bl, msf, c, st, P, tok, st1 =>
      fun hinv heof hub hoob hsuf hPlen hL0 hRle hrange hmsf hmsff hfuel heq hoob1 => by
    have hrc : st.rc = (I.length : Int) - (pend st).length := hinv.2.2.1 heof
    have hcsuf : SuffixOf (c :: pend st) I := SuffixOf_sub hsuf
    have hplen : (pend st).length ≤ I.length :=
      SuffixOf_length (SuffixOf_tail hcsuf)
    simp only [tokenLoopGo] at heq
    rw [if_pos (by omega : st.rc ≤ (I.length : Int))] at heq
    rw [if_neg (by simp [end_of_input, heof] :
      ¬(end_of_input st = true))] at heq
    by_cases hL : search_left D SA c offset L R < 0
    · rw [if_pos hL] at heq
      cases msf with
      | true =>
        rw [if_pos rfl] at heq
        obtain ⟨hbl, hoff1, hmbp⟩ := hmsf rfl
        rw [Except.ok.injEq, Prod.mk.injEq] at heq
        obtain ⟨htok, hst⟩ := heq
        obtain ⟨hpend1, heof1, hrc1, hoob1e, hinv1⟩ := unget_inv hinv heof hub hcsuf
        subst hst
        have hPne : P ≠ [] := by
          intro hx
          rw [hx] at hPlen
          simp at hPlen
          omega
        refine ⟨hinv1, ?_, ?_, ?_⟩
        · rw [← htok]
          simp only [is_end_sentinel, hbl]
          simp
        · rw [← htok]
          constructor
          · simp [hbl]
          · intro _
            simp only [hbl]
            rw [show ((offset : Int)).toNat = offset from by omega]
            rw [← hPlen]
            exact matchP_bound hmbp hPne
        · rw [← htok]
          simp only [tokSpan, hbl]
          rw [if_neg (by simp; omega)]
          rw [show ((offset : Int)).toNat = offset from by omega, ← hPlen]
          unfold matchP at hmbp
          rw [hmbp, hpend1]
      | false =>
        rw [if_neg (by simp)] at heq
        have hP : P = [] := hmsff rfl
        rw [Except.ok.injEq, Prod.mk.injEq] at heq
        obtain ⟨htok, hst⟩ := heq
        subst hst
        refine ⟨hinv, ?_, ?_, ?_⟩
        · rw [← htok]; simp [is_end_sentinel]
        · rw [← htok]
          exact ⟨by simp, by simp⟩
        · rw [← htok]
          simp [tokSpan, hP]
    · rw [if_neg hL] at heq
      have hfound := search_left_found
        (rfl : search_left D SA c offset L R = search_left D SA c offset L R)
        hL0 (by omega)
      set L1 := search_left D SA c offset L R with hL1def
      obtain ⟨hLL1, hL1R, hL1in, hL1c⟩ := hfound
      have hmL1 : matchP D SA L1 P := hrange L1 hLL1 hL1R
      have hkey : keyAt D offset SA L1 = c + 1 := by
        unfold keyAt
        rw [if_pos hL1in, hL1c]
      have hmono := @key_monotone D SA L1 R P hsort
        (fun j hj1 hj2 => hrange j (by omega) hj2) (by omega) hRle
      rw [hPlen] at hmono
      have hcompl := @search_right_complete D SA c offset L1 R
        hmono ⟨L1, le_refl _, hL1R, hkey⟩
      set R1 := search_right D SA c offset L1 R with hR1def
      obtain ⟨hLR1, hR1R, hR1key⟩ := hcompl
      have hR1in : saGetI SA R1 + offset < D.length ∧
          dget D (saGetI SA R1 + offset) = c := by
        unfold keyAt at hR1key
        by_cases hx : saGetI SA R1 + offset < D.length
        · rw [if_pos hx] at hR1key
          exact ⟨hx, by omega⟩
        · rw [if_neg hx] at hR1key
          omega
      rw [if_neg (by omega : ¬R1 < 0)] at heq
      have hrange2 : ∀ j : Int, L1 ≤ j → j ≤ R1 → matchP D SA j (P ++ [c]) := by
        intro j hj1 hj2
        have hm1 : matchP D SA L1 (P ++ [c]) := matchP_snoc hmL1
          (by rw [hPlen]; exact hL1in) (by rw [hPlen]; exact hL1c)
        have hm2 : matchP D SA R1 (P ++ [c]) := matchP_snoc
          (hrange R1 (by omega) (by omega))
          (by rw [hPlen]; exact hR1in.1) (by rw [hPlen]; exact hR1in.2)
        exact matchP_between hsort (by omega) hj1 hj2 (by omega) hm1 hm2
      by_cases hLR : L1 = R1
      · rw [if_pos hLR] at heq
        rw [Except.ok.injEq] at heq
        have hfl := fastLoop_spec D g I offset c st (saGetI SA L1) P tok st1
          hinv heof hub hoob hsuf hPlen
          (by rw [← hPlen]; exact hmL1)
          hL1in hL1c heq hoob1
        obtain ⟨hinv3, m, htok3, hm3, hb3, hid3⟩ := hfl
        refine ⟨hinv3, ?_, ?_, ?_⟩
        · rw [htok3]
          simp only [is_end_sentinel]
          simp
        · rw [htok3]
          refine ⟨by simp, ?_⟩
          intro _
          simp only
          rw [show ((m : Int)).toNat = m from by omega]
          exact hb3
        · rw [htok3]
          simp only [tokSpan]
          rw [if_neg (by simp; omega)]
          rw [show ((m : Int)).toNat = m from by omega]
          exact hid3
      · rw [if_neg hLR] at heq
        cases hp : pend st with
        | nil =>
          obtain ⟨heof2, hpend2, hub2, hrc2, hoob2, hinv2⟩ := getnext_nil hinv hp
          rw [if_pos (by simp [end_of_input, heof2, hub2])] at heq
          rw [Except.ok.injEq, Prod.mk.injEq] at heq
          obtain ⟨htok, hst⟩ := heq
          subst hst
          have hm1 : matchP D SA L1 (P ++ [c]) := matchP_snoc hmL1
            (by rw [hPlen]; exact hL1in) (by rw [hPlen]; exact hL1c)
          refine ⟨hinv2, ?_, ?_, ?_⟩
          · rw [← htok]
            simp only [is_end_sentinel]
            simp
            intro _
            omega
          · rw [← htok]
            refine ⟨by simp; omega, ?_⟩
            intro _
            simp only
            rw [show ((offset : Int) + 1).toNat = offset + 1 from by omega]
            have := matchP_bound hm1 (by simp)
            simp [hPlen] at this
            omega
          · rw [← htok]
            simp only [tokSpan]
            rw [if_neg (by omega : ¬((offset : Int) + 1 = 0))]
            rw [show ((offset : Int) + 1).toNat = offset + 1 from by omega]
            unfold matchP at hm1
            simp only [List.length_append, List.length_singleton, hPlen] at hm1
            rw [hm1, hpend2]
            simp [hp]
        | cons x P2 =>
          obtain ⟨hc2, hpend2, heof2, hub2, hrc2, hoob2, hinv2⟩ := getnext_cons hinv hp
          rw [if_neg (by simp [end_of_input, heof2] :
            ¬(end_of_input (getnext st).2 = true))] at heq
          have ih := tokenLoopGo_spec D SA g I hsort fuel (offset + 1) L1 R1 L1
            ((offset : Int) + 1) true (getnext st).1 (getnext st).2 (P ++ [c])
            tok st1 hinv2 heof2 hub2 (by rw [hoob2]; exact hoob)
            (by
              rw [hc2, hpend2]
              have hxx : P ++ [c] ++ x :: P2 = P ++ c :: pend st := by
                rw [hp]; simp
              rw [hxx]; exact hsuf)
            (by simp [hPlen])
            (by omega) (by omega)
            hrange2
            (fun _ => ⟨by push_cast; ring, by omega,
              hrange2 L1 (le_refl _) (by omega)⟩)
            (by simp)
            (by
              rw [hrc2]
              rw [hp] at hrc
              simp only [List.length_cons] at hrc
              push_cast at hrc
              omega)
            heq hoob1
          obtain ⟨hinv3, hsent3, hwf3, hid3⟩ := ih
          refine ⟨hinv3, hsent3, hwf3, ?_⟩
          rw [hid3]
          simp [hc2, hpend2, hp]

theorem tokenLoopGo_stop (D SA : List Nat) (g : Nat → Nat) (n : Int)
    (fuel offset : Nat) (L R bp bl : Int) (msf : Bool) (c : Nat) (st : PState)
    (h : n < st.rc) :
    tokenLoopGo D SA g n fuel offset L R bp bl msf c st
      = if end_of_input st then .ok (end_sentinel, st)
        else .error "outside token-finding loop" := by
  cases fuel with
  | zero => rfl
  | succ fuel => simp only [tokenLoopGo, if_neg (by omega : ¬st.rc ≤ n)]

/-- Specification of Parser::next_token: from any invariant state (with no
out-of-bounds read before or after), it yields the sentinel exactly when
the input is exhausted, and otherwise a well-formed non-sentinel token
whose span is the input it consumed. -/
theorem next_token_spec (D SA : List Nat) (g : Nat → Nat) (I : List Nat)
    (hsort : SortedSA D SA) (st : PState) (tok : RLZToken) (st1 : PState)
    (hinv : PInv I st) (hoob : st.oob = false)
    (heq : next_token D SA g (I.length : Int) st = .ok (tok, st1))
    (hoob1 : st1.oob = false) :
    PInv I st1 ∧
      ((is_end_sentinel tok = true ∧ pend st = [] ∧ pend st1 = []) ∨
       (is_end_sentinel tok = false ∧ TokWF D tok ∧
        tokSpan D tok ++ pend st1 = pend st)) := by
  unfold next_token at heq
  cases hp : pend st with
  | nil =>
    obtain ⟨heof2, hpend2, hub2, hrc2, hoob2, hinv2⟩ := getnext_nil hinv hp
    rw [tokenLoopGo_stop D SA g (I.length : Int) _ 0 0 ((SA.length : Int) - 1)
      0 0 false (getnext st).1 (getnext st).2
      (by
        rw [hrc2]
        by_cases he : st.eofFlag
        · have := hinv.2.2.2 he
          omega
        · have := hinv.2.2.1 (by simpa using he)
          rw [hp] at this
          simp at this
          omega)] at heq
    rw [if_pos (by simp [end_of_input, heof2, hub2])] at heq
    rw [Except.ok.injEq, Prod.mk.injEq] at heq
    obtain ⟨htok, hst⟩ := heq
    subst hst
    exact ⟨hinv2, Or.inl ⟨by rw [← htok]; rfl, rfl, hpend2⟩⟩
  | cons x P2 =>
    obtain ⟨hc2, hpend2, heof2, hub2, hrc2, hoob2, hinv2⟩ := getnext_cons hinv hp
    have hspec := tokenLoopGo_spec D SA g I hsort
      (((I.length : Int) + 1 - (getnext st).2.rc).toNat + 1) 0 0
      ((SA.length : Int) - 1) 0 0 false (getnext st).1 (getnext st).2 []
      tok st1 hinv2 heof2 hub2 (by rw [hoob2]; exact hoob)
      (by
        simp only [List.nil_append]
        rw [hc2, hpend2, ← hp]
        exact hinv.1)
      rfl (le_refl _) (le_refl _)
      (fun j _ _ => matchP_nil D SA j)
      (by simp)
      (fun _ => rfl)
      (by omega)
      heq hoob1
    obtain ⟨hinv3, hsent3, hwf3, hid3⟩ := hspec
    refine ⟨hinv3, Or.inr ⟨hsent3, hwf3, ?_⟩⟩
    rw [hid3]
    simp [hc2, hpend2]

theorem next_token_oob (D SA : List Nat) (g : Nat → Nat) (n : Int)
    (st : PState) (tok : RLZToken) (st1 : PState) (h : st.oob = true)
    (heq : next_token D SA g n st = .ok (tok, st1)) : st1.oob = true := by
  unfold next_token at heq
  exact tokenLoopGo_oob D SA g n _ 0 0 ((SA.length : Int) - 1) 0 0 false
    (getnext st).1 (getnext st).2 tok st1 (by rw [getnext_oob]; exact h) heq

theorem parseGo_oob (D SA : List Nat) (g : Nat → Nat) (n : Int) :
    ∀ (fuel : Nat) (st : PState) (toks : List RLZToken) (st2 : PState),
      st.oob = true → parseGo D SA g n fuel st = .ok (toks, st2) →
      st2.oob = true
  | 0, st, toks, st2 => fun _ heq => by simp [parseGo] at heq
  | fuel + 1, st, toks, st2 => fun h heq => by
    simp only [parseGo] at heq
    cases hnt : next_token D SA g n st with
    | error e => rw [hnt] at heq; cases heq
    | ok p =>
      obtain ⟨tok, st1⟩ := p
      rw [hnt] at heq
      dsimp only at heq
      have h1 : st1.oob = true := next_token_oob D SA g n st tok st1 h hnt
      by_cases hs : is_end_sentinel tok
      · rw [if_pos hs] at heq
        rw [Except.ok.injEq, Prod.mk.injEq] at heq
        obtain ⟨_, hst⟩ := heq
        rw [← hst]; exact h1
      · rw [if_neg hs] at heq
        cases hrec : parseGo D SA g n fuel st1 with
        | error e => rw [hrec] at heq; cases heq
        | ok q =>
          obtain ⟨toks1, st3⟩ := q
          rw [hrec] at heq
          rw [Except.ok.injEq, Prod.mk.injEq] at heq
          obtain ⟨_, hst⟩ := heq
          rw [← hst]
          exact parseGo_oob D SA g n fuel st1 toks1 st3 h1 hrec

/-- Specification of the work loop: a successful run with no out-of-bounds
read consumes all pending input, emitting well-formed non-sentinel tokens
whose spans concatenate to exactly that input. -/
theorem parseGo_spec (D SA : List Nat) (g : Nat → Nat) (I : List Nat)
    (hsort : SortedSA D SA) :
    ∀ (fuel : Nat) (st : PState) (toks : List RLZToken) (st2 : PState),
      PInv I st → st.oob = false →
      parseGo D SA g (I.length : Int) fuel st = .ok (toks, st2) →
      st2.oob = false →
      (toks.map (tokSpan D)).flatten = pend st ∧
        ∀ t ∈ toks, TokWF D t ∧ is_end_sentinel t = false
  | 0, st, toks, st2 => fun _ _ heq _ => by simp [parseGo] at heq
  | fuel + 1, st, toks, st2 => fun hinv hoob heq hoob2 => by
    simp only [parseGo] at heq
    cases hnt : next_token D SA g (I.length : Int) st with
    | error e => rw [hnt] at heq; cases heq
    | ok p =>
      obtain ⟨tok, st1⟩ := p
      rw [hnt] at heq
      dsimp only at heq
      by_cases hs : is_end_sentinel tok
      · rw [if_pos hs] at heq
        rw [Except.ok.injEq, Prod.mk.injEq] at heq
        obtain ⟨htoks, hst⟩ := heq
        subst hst
        have hspec := next_token_spec D SA g I hsort st tok st1 hinv hoob hnt hoob2
        rcases hspec.2 with ⟨_, hpend, _⟩ | ⟨hns, _, _⟩
        · rw [← htoks]
          exact ⟨by simp [hpend], by simp⟩
        · rw [hs] at hns; cases hns
      · rw [if_neg hs] at heq
        cases hrec : parseGo D SA g (I.length : Int) fuel st1 with
        | error e => rw [hrec] at heq; cases heq
        | ok q =>
          obtain ⟨toks1, st3⟩ := q
          rw [hrec] at heq
          rw [Except.ok.injEq, Prod.mk.injEq] at heq
          obtain ⟨htoks, hst⟩ := heq
          subst hst
          have hoob1 : st1.oob = false := by
            by_cases hx : st1.oob
            · have := parseGo_oob D SA g (I.length : Int) fuel st1 toks1 st3 hx hrec
              rw [this] at hoob2
              cases hoob2
            · simpa using hx
          have hspec := next_token_spec D SA g I hsort st tok st1 hinv hoob hnt hoob1
          rcases hspec.2 with ⟨hsent, _, _⟩ | ⟨hns, hwf, hid⟩
          · rw [hsent] at hs; exact absurd rfl hs
          · have ih := parseGo_spec D SA g I hsort fuel st1 toks1 st3 hspec.1
              hoob1 hrec hoob2
            rw [← htoks]
            constructor
            · simp only [List.map_cons, List.flatten_cons]
              rw [ih.1, hid]
            · intro t ht
              rcases List.mem_cons.mp ht with h | h
              · subst h; exact ⟨hwf, hns⟩
              · exact ih.2 t h

/-- Top-level parse specification: a successful parse with a clear
out-of-bounds flag produces well-formed non-sentinel tokens whose spans
concatenate to the input, under a sorted suffix array. -/
theorem parse_spec (D SA : List Nat) (g : Nat → Nat) (I : List Nat)
    (toks : List RLZToken) (hsort : SortedSA D SA)
    (hp : parse D SA g I = .ok (toks, false)) :
    (toks.map (tokSpan D)).flatten = I ∧
      ∀ t ∈ toks, TokWF D t ∧ is_end_sentinel t = false := by
  unfold parse at hp
  cases hpg : parseGo D SA g (I.length : Int) (I.length + 2)
      ⟨I, false, none, 0, false⟩ with
  | error e => rw [hpg] at hp; cases hp
  | ok q =>
    obtain ⟨toks1, st⟩ := q
    rw [hpg] at hp
    rw [Except.ok.injEq, Prod.mk.injEq] at hp
    obtain ⟨htoks, hoob⟩ := hp
    subst htoks
    have := parseGo_spec D SA g I hsort (I.length + 2) ⟨I, false, none, 0, false⟩
      toks1 st (PInv_init I) rfl hpg hoob
    simpa [pend] using this

/- ===================== Unparser lemmas ===================== -/

/-- What write_next emits for a token: a literal writes its start_pos
truncated to W bits, a copy writes the named dictionary slice. -/
def spanW (W : Nat) (D : List Nat) (t : RLZToken) : List Nat :=
  if t.length = 0 then [t.start_pos % 2 ^ W]
  else (D.drop t.start_pos).take t.length.toNat

theorem write_next_lit (W : Nat) (D : List Nat) (tok : RLZToken)
    (start stop : Int) (hlen : tok.length = 0) :
    write_next W D tok start stop
      = ⟨[tok.start_pos % 2 ^ W], 1, false, false⟩ := by
  unfold write_next
  rw [if_pos hlen]

/-- The signed pos of rlzunparse.cpp 100 equals start_pos while the latter
is below 2^63. -/
theorem write_next_pos (tok : RLZToken) (hp63 : tok.start_pos < 2 ^ 63) :
    toSigned64 (tok.start_pos % 2 ^ 64) = (tok.start_pos : Int) := by
  unfold toSigned64
  rw [Nat.mod_eq_of_lt (by omega), if_pos hp63]

/-- With a nonnegative first index the guarded copy-loop reads reduce to
plain dictionary reads. -/
theorem map_range_read (D : List Nat) (x0 : Int) (cnt : Nat) (h0 : 0 ≤ x0) :
    (List.range cnt).map
        (fun (i : Nat) => if x0 + (i : Int) < 0 then 0
          else dget D (x0 + (i : Int)).toNat)
      = (List.range cnt).map (fun i => dget D (x0.toNat + i)) := by
  apply List.map_congr_left
  intro i _
  rw [if_neg (by omega)]
  congr 1
  omega

theorem write_next_copy (W : Nat) (D : List Nat) (tok : RLZToken)
    (hlen : 0 < tok.length) (hp63 : tok.start_pos < 2 ^ 63)
    (hbound : tok.start_pos + tok.length.toNat ≤ D.length) :
    write_next W D tok 0 0
      = ⟨(D.drop tok.start_pos).take tok.length.toNat, tok.length,
         false, false⟩ := by
  unfold write_next
  rw [write_next_pos tok hp63]
  rw [if_neg (by omega)]
  have h1 : ((tok.start_pos : Int) + tok.length ≤ (D.length : Int)) := by
    omega
  simp only [le_refl, if_pos, add_zero]
  rw [if_neg (by omega : ¬((tok.start_pos : Int) + tok.length > (D.length : Int)))]
  have hcnt : (((tok.start_pos : Int) + tok.length - tok.start_pos)).toNat
      = tok.length.toNat := by omega
  rw [hcnt]
  rw [map_range_read D (tok.start_pos : Int) tok.length.toNat (by omega)]
  have hpos : ((tok.start_pos : Int)).toNat = tok.start_pos := by omega
  rw [hpos]
  rw [map_range_dget D tok.start_pos tok.length.toNat hbound]
  have hng : ¬((tok.start_pos : Int) + tok.length > (D.length : Int)) := by omega
  have hnoob : ¬((tok.start_pos : Int) < 0) := by omega
  simp [hng, hnoob]

theorem write_next_window (W : Nat) (D : List Nat) (tok : RLZToken)
    (start stop : Int)
    (hlen : 0 < tok.length) (hp63 : tok.start_pos < 2 ^ 63)
    (hbound : tok.start_pos + tok.length.toNat ≤ D.length)
    (hstart : 0 ≤ start) (hstople : stop ≤ tok.length) (hstop : 0 < stop) :
    write_next W D tok start stop
      = ⟨(D.drop (tok.start_pos + start.toNat)).take (stop.toNat - start.toNat),
         tok.length, false, false⟩ := by
  unfold write_next
  rw [write_next_pos tok hp63]
  rw [if_neg (by omega)]
  dsimp only
  rw [if_neg (by omega : ¬stop ≤ 0)]
  have hng : ¬((tok.start_pos : Int) + stop > (D.length : Int)) := by omega
  rw [if_neg hng]
  have hcnt : (((tok.start_pos : Int) + stop - ((tok.start_pos : Int) + start))).toNat
      = stop.toNat - start.toNat := by omega
  rw [hcnt]
  rw [map_range_read D ((tok.start_pos : Int) + start)
    (stop.toNat - start.toNat) (by omega)]
  have hpos : (((tok.start_pos : Int) + start)).toNat
      = tok.start_pos + start.toNat := by omega
  rw [hpos]
  have hnoob : ¬((tok.start_pos : Int) + start < 0) := by omega
  by_cases hss : start ≤ stop
  · rw [map_range_dget D (tok.start_pos + start.toNat) (stop.toNat - start.toNat)
      (by omega)]
    simp [hng, hnoob]
  · have h0 : stop.toNat - start.toNat = 0 := by omega
    rw [h0]
    simp [hng, hnoob]

theorem unparseGo_full_out (W : Nat) (D : List Nat) (hD : D.length < 2 ^ 63) :
    ∀ (toks : List RLZToken) (tr sw opos : Int) (acc : List Nat),
      (∀ t ∈ toks, TokWF D t ∧ is_end_sentinel t = false) →
      (unparseGo W D 0 0 toks tr sw opos acc).out
        = acc ++ (toks.map (spanW W D)).flatten
  | [], tr, sw, opos, acc => fun _ => by simp [unparseGo]
  | tok :: rest, tr, sw, opos, acc => fun hwf => by
    obtain ⟨⟨hwl, hwb⟩, hs⟩ := hwf tok (List.mem_cons_self tok rest)
    simp only [unparseGo]
    rw [if_neg (by simp [hs])]
    rw [if_pos (⟨trivial, trivial⟩ : True ∧ True)]
    rw [unparseGo_full_out W D hD rest _ _ _ _
      (fun t ht => hwf t (List.mem_cons_of_mem tok ht))]
    by_cases hl : tok.length = 0
    · rw [write_next_lit W D tok 0 0 hl]
      simp [spanW, hl]
    · have hb := hwb (by omega)
      rw [write_next_copy W D tok (by omega) (by omega) hb]
      simp [spanW, hl]

theorem unparseGo_full_counts (W : Nat) (D : List Nat) :
    ∀ (toks : List RLZToken) (tr sw opos : Int) (acc : List Nat),
      (∀ t ∈ toks, is_end_sentinel t = false) →
      (unparseGo W D 0 0 toks tr sw opos acc).toksRead = tr + toks.length ∧
      (unparseGo W D 0 0 toks tr sw opos acc).symsWritten
        = sw + (toks.map (fun t => if t.length = 0 then (1 : Int)
            else t.length)).sum
  | [], tr, sw, opos, acc => fun _ => by simp [unparseGo]
  | tok :: rest, tr, sw, opos, acc => fun hwf => by
    have hs := hwf tok (List.mem_cons_self tok rest)
    simp only [unparseGo]
    rw [if_neg (by simp [hs])]
    rw [if_pos (⟨trivial, trivial⟩ : True ∧ True)]
    have ih := unparseGo_full_counts W D rest (tr + 1)
      (sw + (write_next W D tok 0 0).ret) opos
      (acc ++ (write_next W D tok 0 0).out)
      (fun t ht => hwf t (List.mem_cons_of_mem tok ht))
    refine ⟨?_, ?_⟩
    · rw [ih.1]
      simp
      omega
    · rw [ih.2]
      have hret : (write_next W D tok 0 0).ret
          = if tok.length = 0 then (1 : Int) else tok.length := by
        by_cases hl : tok.length = 0
        · rw [write_next_lit W D tok 0 0 hl, if_pos hl]
        · unfold write_next
          rw [if_neg hl, if_neg hl]
      rw [hret]
      simp
      ring

/- ===================== Codec lemmas: little-endian integers ===================== -/

theorem leBytes_length : ∀ (k v : Nat), (leBytes k v).length = k
  | 0, _ => rfl
  | k + 1, v => by simp [leBytes, leBytes_length k]

theorem leVal_leBytes : ∀ (k v : Nat), v < 256 ^ k → leVal (leBytes k v) = v
  | 0, v => fun h => by
    simp [leBytes, leVal]
    omega
  | k + 1, v => fun h => by
    simp only [leBytes, leVal, List.foldr_cons]
    have ih := leVal_leBytes k (v / 256) (by
      have : 256 ^ (k + 1) = 256 ^ k * 256 := by ring
      omega)
    unfold leVal at ih
    rw [ih]
    omega

theorem leBytes_lt : ∀ (k v : Nat), ∀ b ∈ leBytes k v, b < 256
  | 0, _ => by simp [leBytes]
  | k + 1, v => by
    simp only [leBytes, List.mem_cons]
    rintro b (rfl | hb)
    · omega
    · exact leBytes_lt k (v / 256) b hb

/-- Decoding step for the 32x2 format on a canonical token encoding. -/
theorem step_32x2 (t : RLZToken) (rest : List Nat)
    (hns : is_end_sentinel t = false)
    (hp : t.start_pos < 2 ^ 32) (hl0 : 0 ≤ t.length) (hl : t.length < 2 ^ 32) :
    rlz_next_token .f32x2 ⟨output_token .f32x2 t ++ rest, false, false⟩
      = .ok (t, ⟨rest, false, false⟩) := by
  have henc : output_token .f32x2 t
      = leBytes 4 (t.start_pos % 2 ^ 32) ++ leBytes 4 ((t.length % 2 ^ 32).toNat) := by
    unfold output_token
    rw [if_neg (by simp [hns])]
  have hlen1 : (leBytes 4 (t.start_pos % 2 ^ 32)).length = 4 := leBytes_length ..
  have hlen2 : (leBytes 4 ((t.length % 2 ^ 32).toNat)).length = 4 := leBytes_length ..
  unfold rlz_next_token
  rw [if_neg (by simp)]
  unfold next_token_32x2
  rw [henc]
  simp only [List.append_assoc]
  rw [if_neg (by simp only [List.length_append, hlen1, hlen2]; omega)]
  have htk1 : (leBytes 4 (t.start_pos % 2 ^ 32)
      ++ (leBytes 4 ((t.length % 2 ^ 32).toNat) ++ rest)).take 4
      = leBytes 4 (t.start_pos % 2 ^ 32) := by
    rw [List.take_append_of_le_length (by omega), List.take_of_length_le (by omega)]
  have hdr1 : (leBytes 4 (t.start_pos % 2 ^ 32)
      ++ (leBytes 4 ((t.length % 2 ^ 32).toNat) ++ rest)).drop 4
      = leBytes 4 ((t.length % 2 ^ 32).toNat) ++ rest := by
    rw [List.drop_append_of_le_length (by omega), List.drop_of_length_le (by omega)]
    simp
  have htk2 : ((leBytes 4 ((t.length % 2 ^ 32).toNat) ++ rest)).take 4
      = leBytes 4 ((t.length % 2 ^ 32).toNat) := by
    rw [List.take_append_of_le_length (by omega), List.take_of_length_le (by omega)]
  have hdr2 : (leBytes 4 (t.start_pos % 2 ^ 32)
      ++ (leBytes 4 ((t.length % 2 ^ 32).toNat) ++ rest)).drop 8
      = rest := by
    rw [show (8 : Nat) = 4 + 4 from rfl, ← List.drop_drop, hdr1,
      List.drop_append_of_le_length (by omega), List.drop_of_length_le (by omega)]
    simp
  rw [htk1, hdr1, htk2, hdr2]
  have h1 : leVal (leBytes 4 (t.start_pos % 2 ^ 32)) = t.start_pos % 2 ^ 32 :=
    leVal_leBytes 4 (t.start_pos % 2 ^ 32) (by norm_num; omega)
  have h2 : leVal (leBytes 4 ((t.length % 2 ^ 32).toNat)) = (t.length % 2 ^ 32).toNat :=
    leVal_leBytes 4 ((t.length % 2 ^ 32).toNat) (by norm_num; omega)
  simp only [h1, h2]
  have hps : t.start_pos % 2 ^ 32 = t.start_pos := Nat.mod_eq_of_lt hp
  have hls : ((((t.length % 2 ^ 32).toNat) : Nat) : Int) = t.length := by omega
  rw [hps]
  rw [Except.ok.injEq, Prod.mk.injEq]
  refine ⟨?_, rfl⟩
  rw [show t = ⟨t.start_pos, t.length⟩ from rfl]
  simp
  omega

set_option maxHeartbeats 1000000 in
/-- Decoding step for the 64x2 format on a canonical token encoding. -/
theorem step_64x2 (t : RLZToken) (rest : List Nat)
    (hns : is_end_sentinel t = false)
    (hp : t.start_pos < 2 ^ 64) (hl0 : 0 ≤ t.length) (hl : t.length < 2 ^ 63) :
    rlz_next_token .f64x2 ⟨output_token .f64x2 t ++ rest, false, false⟩
      = .ok (t, ⟨rest, false, false⟩) := by
  have henc : output_token .f64x2 t
      = leBytes 8 (t.start_pos % 2 ^ 64) ++ leBytes 8 ((t.length % 2 ^ 64).toNat) := by
    unfold output_token
    rw [if_neg (by simp [hns])]
  have hlen1 : (leBytes 8 (t.start_pos % 2 ^ 64)).length = 8 := leBytes_length ..
  have hlen2 : (leBytes 8 ((t.length % 2 ^ 64).toNat)).length = 8 := leBytes_length ..
  unfold rlz_next_token
  rw [if_neg (by simp)]
  unfold next_token_64x2
  rw [henc]
  simp only [List.append_assoc]
  rw [if_neg (by simp only [List.length_append, hlen1, hlen2]; omega)]
  have htk1 : (leBytes 8 (t.start_pos % 2 ^ 64)
      ++ (leBytes 8 ((t.length % 2 ^ 64).toNat) ++ rest)).take 8
      = leBytes 8 (t.start_pos % 2 ^ 64) := by
    rw [List.take_append_of_le_length (by omega), List.take_of_length_le (by omega)]
  have hdr1 : (leBytes 8 (t.start_pos % 2 ^ 64)
      ++ (leBytes 8 ((t.length % 2 ^ 64).toNat) ++ rest)).drop 8
      = leBytes 8 ((t.length % 2 ^ 64).toNat) ++ rest := by
    rw [List.drop_append_of_le_length (by omega), List.drop_of_length_le (by omega)]
    simp
  have htk2 : ((leBytes 8 ((t.length % 2 ^ 64).toNat) ++ rest)).take 8
      = leBytes 8 ((t.length % 2 ^ 64).toNat) := by
    rw [List.take_append_of_le_length (by omega), List.take_of_length_le (by omega)]
  have hdr2 : (leBytes 8 (t.start_pos % 2 ^ 64)
      ++ (leBytes 8 ((t.length % 2 ^ 64).toNat) ++ rest)).drop 16
      = rest := by
    rw [show (16 : Nat) = 8 + 8 from rfl, ← List.drop_drop, hdr1,
      List.drop_append_of_le_length (by omega), List.drop_of_length_le (by omega)]
    simp
  rw [htk1, hdr1, htk2, hdr2]
  have h256 : (256 : Nat) ^ 8 = 2 ^ 64 := by norm_num
  have hb1 : t.start_pos % 2 ^ 64 < 256 ^ 8 := by rw [h256]; omega
  have hb2 : (t.length % 2 ^ 64).toNat < 256 ^ 8 := by rw [h256]; omega
  have h1 := leVal_leBytes 8 (t.start_pos % 2 ^ 64) hb1
  have h2 := leVal_leBytes 8 ((t.length % 2 ^ 64).toNat) hb2
  simp only [h1, h2]
  clear h1 h2 hb1 hb2 h256 henc htk1 hdr1 htk2 hdr2 hlen1 hlen2
  have hps : t.start_pos % 2 ^ 64 = t.start_pos := Nat.mod_eq_of_lt hp
  have hts : toSigned64 ((t.length % 2 ^ 64).toNat) = t.length := by
    unfold toSigned64
    rw [if_pos (by omega)]
    omega
  rw [hps, hts]

/- ===================== Codec lemmas: vbyte ===================== -/

theorem vbLoop_zero : ∀ fuel, vbLoop fuel 0 = []
  | 0 => rfl
  | _ + 1 => by simp [vbLoop]

/-- The vbyte field reader inverts the encoder chunk loop: reading the
encoding of a positive value N that fits below the shift limit consumes
exactly its bytes and accumulates acc + N shifted into place, ending with
the shift width still below the limit. -/
theorem vbReadField_vbLoop (limit : Nat) (hlim : limit ≤ 64) :
    ∀ (fuel N sw acc : Nat) (rest : List Nat),
      0 < N → N ≤ fuel → sw < limit → N < 2 ^ (limit - sw) → acc < 2 ^ sw →
      ∃ sw2, sw2 < limit ∧
        vbReadField limit (vbLoop fuel N ++ rest) sw acc
          = some (acc + N * 2 ^ sw, sw2, rest) := by
  intro fuel
  induction fuel with
  | zero =>
    intro N sw acc rest h1 h2
    exact absurd h1 (by omega)
  | succ fuel ih =>
    intro N sw acc rest hN hNf hsw hNb hacc
    have hpow : 2 ^ (limit - sw) * 2 ^ sw = 2 ^ limit := by
      rw [← pow_add]
      congr 1
      omega
    have hle64 : (2 : Nat) ^ limit ≤ 2 ^ 64 := Nat.pow_le_pow_right (by norm_num) hlim
    have hswpos : 0 < 2 ^ sw := Nat.pos_pow_of_pos sw (by norm_num)
    rw [vbLoop, if_neg (by omega)]
    by_cases hsmall : N ≤ 127
    · have hdiv : N / 128 = 0 := by omega
      rw [if_pos hsmall, hdiv, vbLoop_zero]
      refine ⟨sw, hsw, ?_⟩
      simp only [List.cons_append, List.nil_append]
      rw [vbReadField, if_pos hsw, if_neg (by omega)]
      have hmul : N * 2 ^ sw ≤ (2 ^ (limit - sw) - 1) * 2 ^ sw :=
        Nat.mul_le_mul_right _ (by omega)
      rw [Nat.sub_mul, hpow] at hmul
      have hlt64 : acc + N * 2 ^ sw < 2 ^ 64 := by
        have hsl : (2 : Nat) ^ sw ≤ 2 ^ limit :=
          Nat.pow_le_pow_right (by norm_num) (by omega)
        revert hmul
        generalize N * 2 ^ sw = m
        intro hmul
        omega
      rw [Nat.mod_eq_of_lt hlt64]
    · have h7k : 7 < limit - sw := by
        have h1 : (2 : Nat) ^ 7 < 2 ^ (limit - sw) := by
          have h128 : (2 : Nat) ^ 7 = 128 := by norm_num
          omega
        exact (Nat.pow_lt_pow_iff_right (by norm_num)).mp h1
      have hsw7 : sw + 7 < limit := by omega
      have hpow7 : 2 ^ (limit - sw) = 2 ^ (limit - sw - 7) * 128 := by
        rw [show (128 : Nat) = 2 ^ 7 from rfl, ← pow_add]
        congr 1
        omega
      rw [if_neg hsmall]
      simp only [List.cons_append]
      rw [vbReadField, if_pos hsw, if_pos (by omega : 128 ≤ N % 128 + 128)]
      have hc : (N % 128 + 128) % 128 = N % 128 := by omega
      have h2p : (2 : Nat) ^ (sw + 7) = 2 ^ sw * 128 := by
        rw [pow_add]
        norm_num
      have hacc2 : acc + N % 128 * 2 ^ sw < 2 ^ (sw + 7) := by
        have hmm : N % 128 * 2 ^ sw ≤ 127 * 2 ^ sw :=
          Nat.mul_le_mul_right _ (by omega)
        rw [h2p]
        revert hmm
        generalize N % 128 * 2 ^ sw = m
        intro hmm
        omega
      have hle2 : (2 : Nat) ^ (sw + 7) ≤ 2 ^ 64 :=
        Nat.pow_le_pow_right (by norm_num) (by omega)
      have hlt : acc + N % 128 * 2 ^ sw < 2 ^ 64 := by
        revert hacc2
        generalize N % 128 * 2 ^ sw = m
        intro hacc2
        omega
      rw [hc, Nat.mod_eq_of_lt hlt]
      have hNd : 0 < N / 128 := by omega
      have hNdf : N / 128 ≤ fuel := by omega
      have hNdb : N / 128 < 2 ^ (limit - (sw + 7)) := by
        have hx : N < 2 ^ (limit - sw - 7) * 128 := by rw [← hpow7]; exact hNb
        have hq : N / 128 < 2 ^ (limit - sw - 7) := by omega
        have he : limit - (sw + 7) = limit - sw - 7 := by omega
        rw [he]
        exact hq
      obtain ⟨sw2, hsw2, heq⟩ :=
        ih (N / 128) (sw + 7) (acc + N % 128 * 2 ^ sw) rest hNd hNdf hsw7 hNdb hacc2
      refine ⟨sw2, hsw2, ?_⟩
      rw [heq]
      have hval : acc + N % 128 * 2 ^ sw + N / 128 * 2 ^ (sw + 7)
          = acc + N * 2 ^ sw := by
        rw [h2p]
        have hdm : N % 128 + 128 * (N / 128) = N := Nat.mod_add_div N 128
        calc acc + N % 128 * 2 ^ sw + N / 128 * (2 ^ sw * 128)
            = acc + (N % 128 + 128 * (N / 128)) * 2 ^ sw := by ring
          _ = acc + N * 2 ^ sw := by rw [hdm]
      rw [hval]

/-- Reading a canonically encoded start_pos field under the shift limit 64. -/
theorem vbReadField_encodeField (N : Nat) (rest : List Nat) (hN : N < 2 ^ 64) :
    ∃ sw2, sw2 < 64 ∧
      vbReadField 64 (vbEncodeField N ++ rest) 0 0 = some (N, sw2, rest) := by
  unfold vbEncodeField
  by_cases h0 : N = 0
  · subst h0
    refine ⟨0, by norm_num, ?_⟩
    rw [if_pos rfl]
    simp [vbReadField]
  · rw [if_neg h0]
    obtain ⟨sw2, hsw2, heq⟩ :=
      vbReadField_vbLoop 64 (by norm_num) N N 0 0 rest (by omega) le_rfl
        (by norm_num) (by simpa) (by norm_num)
    refine ⟨sw2, hsw2, ?_⟩
    simpa using heq

/-- Reading a canonically encoded nonnegative length field under the shift
limit 63. -/
theorem vbReadField_encodeLen (L : Int) (rest : List Nat)
    (h0 : 0 ≤ L) (hL : L < 2 ^ 63) :
    ∃ sw2, sw2 < 63 ∧
      vbReadField 63 (vbEncodeLen L ++ rest) 0 0 = some (L.toNat, sw2, rest) := by
  unfold vbEncodeLen
  by_cases hz : L = 0
  · subst hz
    refine ⟨0, by norm_num, ?_⟩
    rw [if_pos rfl]
    simp [vbReadField]
  · rw [if_neg hz, if_pos (by omega)]
    obtain ⟨sw2, hsw2, heq⟩ :=
      vbReadField_vbLoop 63 (by norm_num) L.toNat L.toNat 0 0 rest (by omega) le_rfl
        (by norm_num) (by simp; omega) (by norm_num)
    refine ⟨sw2, hsw2, ?_⟩
    simpa using heq

/-- Decoding step for the vbyte format on a canonical token encoding. -/
theorem step_vbyte (t : RLZToken) (rest : List Nat)
    (hns : is_end_sentinel t = false)
    (hp : t.start_pos < 2 ^ 64) (hl0 : 0 ≤ t.length) (hl : t.length < 2 ^ 63) :
    rlz_next_token .vbyte ⟨output_token .vbyte t ++ rest, false, false⟩
      = .ok (t, ⟨rest, false, false⟩) := by
  have henc : output_token .vbyte t
      = vbEncodeField t.start_pos ++ vbEncodeLen t.length := by
    unfold output_token
    rw [if_neg (by simp [hns])]
  obtain ⟨sw2, hsw2, heq1⟩ :=
    vbReadField_encodeField t.start_pos (vbEncodeLen t.length ++ rest) hp
  obtain ⟨sw3, hsw3, heq2⟩ := vbReadField_encodeLen t.length rest hl0 hl
  unfold rlz_next_token
  rw [if_neg (by simp)]
  have hnt : next_token_vbyte ⟨output_token .vbyte t ++ rest, false, false⟩
      = (⟨t.start_pos, ((t.length.toNat : Nat) : Int)⟩, ⟨rest, false, false⟩) := by
    unfold next_token_vbyte
    rw [henc]
    simp only [List.append_assoc]
    rw [heq1]
    dsimp only
    rw [if_neg (by omega), heq2]
    dsimp only
    rw [if_neg (by omega)]
  rw [hnt]
  dsimp only
  rw [if_neg (by simp; omega)]
  have hcast : ((t.length.toNat : Nat) : Int) = t.length := by omega
  rw [hcast]

/- ===================== Codec lemmas: ascii ===================== -/

theorem decAux_val : ∀ (fuel v : Nat), v ≤ fuel →
    (decAux fuel v).foldr (fun d a => a * 10 + d) 0 = v
  | 0, v => by
    intro h
    simp [decAux]
    omega
  | fuel + 1, v => by
    intro h
    rw [decAux]
    by_cases hz : v = 0
    · simp [hz]
    · rw [if_neg hz]
      simp only [List.foldr_cons]
      rw [decAux_val fuel (v / 10) (by omega)]
      omega

theorem decAux_lt : ∀ (fuel v : Nat), ∀ d ∈ decAux fuel v, d < 10
  | 0, v => by simp [decAux]
  | fuel + 1, v => by
    rw [decAux]
    by_cases hz : v = 0
    · simp [hz]
    · rw [if_neg hz]
      intro d hd
      rcases List.mem_cons.mp hd with h | h
      · omega
      · exact decAux_lt fuel (v / 10) d h

theorem decAux_ne_nil (fuel v : Nat) (h0 : 0 < v) (hf : v ≤ fuel) :
    decAux fuel v ≠ [] := by
  cases fuel with
  | zero => omega
  | succ fuel =>
    rw [decAux, if_neg (by omega)]
    simp

theorem parseDec_rev_map : ∀ (l : List Nat) (a : Nat),
    ((l.reverse.map (fun d => d + 48)).foldl (fun a d => a * 10 + (d - 48)) a)
      = l.foldr (fun d a2 => a2 * 10 + d) a
  | [], a => rfl
  | d :: l, a => by
    simp only [List.reverse_cons, List.map_append, List.foldl_append,
      List.map_cons, List.map_nil, List.foldl_cons, List.foldl_nil,
      List.foldr_cons]
    rw [parseDec_rev_map l a]
    omega

/-- stoul inverts to_string on every uint64 value. -/
theorem parseDec_toDec (v : Nat) : parseDec (toDec v) = v := by
  unfold toDec parseDec
  by_cases hz : v = 0
  · simp [hz]
  · rw [if_neg hz, parseDec_rev_map, decAux_val v v le_rfl]

theorem toDec_mem (v : Nat) : ∀ c ∈ toDec v, 48 ≤ c ∧ c ≤ 57 := by
  unfold toDec
  by_cases hz : v = 0
  · simp [hz]
  · rw [if_neg hz]
    intro c hc
    obtain ⟨d, hd, rfl⟩ := List.mem_map.mp hc
    have := decAux_lt v v d (List.mem_reverse.mp hd)
    omega

theorem toDec_ne_nil (v : Nat) : toDec v ≠ [] := by
  unfold toDec
  by_cases hz : v = 0
  · simp [hz]
  · rw [if_neg hz]
    simp only [ne_eq, List.map_eq_nil_iff, List.reverse_eq_nil_iff]
    exact decAux_ne_nil v v (by omega) le_rfl

theorem isWsB_digit (c : Nat) (h : 48 ≤ c) : isWsB c = false := by
  unfold isWsB
  simp only [Bool.or_eq_false_iff, beq_eq_false_iff_ne, ne_eq]
  omega

theorem takeWordGo_ws : ∀ (w : List Nat) (b : Nat) (tail : List Nat),
    (∀ c ∈ w, isWsB c = false) → isWsB b = true →
    takeWordGo (w ++ b :: tail) = (w, b :: tail, false)
  | [], b, tail => by
    intro _ hb
    simp only [List.nil_append]
    rw [takeWordGo, if_pos hb]
  | c :: w, b, tail => by
    intro hw hb
    simp only [List.cons_append]
    rw [takeWordGo, if_neg (by simp [hw c (by simp)])]
    rw [takeWordGo_ws w b tail (fun x hx => hw x (by simp [hx])) hb]

theorem extractWord_word (c : Nat) (w : List Nat) (b : Nat) (tail : List Nat)
    (hc : isWsB c = false) (hw : ∀ x ∈ w, isWsB x = false) (hb : isWsB b = true) :
    extractWord ((c :: w) ++ b :: tail) = (c :: w, b :: tail, false) := by
  simp only [List.cons_append]
  rw [extractWord, if_neg (by simp [hc])]
  exact takeWordGo_ws (c :: w) b tail
    (by intro x hx; rcases List.mem_cons.mp hx with rfl | h; exact hc; exact hw x h) hb

theorem extractWord_skip_ws (b : Nat) (l : List Nat) (hb : isWsB b = true) :
    extractWord (b :: l) = extractWord l := by
  rw [extractWord, if_pos hb]

/-- Decoding step for the ascii format: the decoder consumes a canonical
token rendering (with an optional leading newline left over from the
previous token) and leaves the trailing newline in the stream. -/
theorem step_ascii (t : RLZToken) (pre rest : List Nat)
    (hpre : pre = [] ∨ pre = [10])
    (hns : is_end_sentinel t = false) (hl0 : 0 ≤ t.length) :
    rlz_next_token .ascii ⟨pre ++ output_token .ascii t ++ rest, false, false⟩
      = .ok (t, ⟨10 :: rest, false, false⟩) := by
  have henc : output_token .ascii t
      = toDec t.start_pos ++ [32] ++ toDecInt t.length ++ [10] := by
    unfold output_token
    rw [if_neg (by simp [hns])]
  have hlen : toDecInt t.length = toDec t.length.toNat := by
    unfold toDecInt
    rw [if_neg (by omega)]
  have hE1 : extractWord (toDec t.start_pos
        ++ 32 :: (toDec t.length.toNat ++ 10 :: rest))
      = (toDec t.start_pos, 32 :: (toDec t.length.toNat ++ 10 :: rest), false) := by
    cases hP : toDec t.start_pos with
    | nil => exact absurd hP (toDec_ne_nil _)
    | cons c w =>
      have hc : isWsB c = false :=
        isWsB_digit c (toDec_mem _ c (by rw [hP]; simp)).1
      have hw : ∀ x ∈ w, isWsB x = false := fun x hx =>
        isWsB_digit x (toDec_mem _ x (by rw [hP]; simp [hx])).1
      exact extractWord_word c w 32 _ hc hw rfl
  have hE2 : extractWord (32 :: (toDec t.length.toNat ++ 10 :: rest))
      = (toDec t.length.toNat, 10 :: rest, false) := by
    rw [extractWord_skip_ws 32 _ rfl]
    cases hL : toDec t.length.toNat with
    | nil => exact absurd hL (toDec_ne_nil _)
    | cons c w =>
      have hc : isWsB c = false :=
        isWsB_digit c (toDec_mem _ c (by rw [hL]; simp)).1
      have hw : ∀ x ∈ w, isWsB x = false := fun x hx =>
        isWsB_digit x (toDec_mem _ x (by rw [hL]; simp [hx])).1
      exact extractWord_word c w 10 _ hc hw rfl
  have hPDI : parseDecInt (toDec t.length.toNat) = t.length := by
    cases hL : toDec t.length.toNat with
    | nil => exact absurd hL (toDec_ne_nil _)
    | cons c w =>
      have h45 : c ≠ 45 := by
        have := (toDec_mem _ c (by rw [hL]; simp)).1
        omega
      have hplain : parseDecInt (c :: w) = ((parseDec (c :: w) : Nat) : Int) := by
        unfold parseDecInt
        split
        · rename_i w3 heq
          injection heq with h1 h2
          omega
        · rfl
      rw [hplain, ← hL, parseDec_toDec]
      omega
  unfold rlz_next_token
  rw [if_neg (by simp)]
  unfold next_token_ascii
  dsimp only
  rw [henc, hlen]
  rcases hpre with rfl | rfl
  · simp only [List.nil_append, List.append_assoc, List.cons_append,
      List.singleton_append]
    rw [hE1]
    dsimp only
    rw [if_neg (by simp), hE2]
    dsimp only
    rw [if_neg (by simp [List.isEmpty_eq_true, toDec_ne_nil])]
    rw [parseDec_toDec, hPDI]
  · simp only [List.append_assoc, List.cons_append, List.singleton_append,
      List.nil_append]
    rw [extractWord_skip_ws 10 _ rfl, hE1]
    dsimp only
    rw [if_neg (by simp), hE2]
    dsimp only
    rw [if_neg (by simp [List.isEmpty_eq_true, toDec_ne_nil])]
    rw [parseDec_toDec, hPDI]

/- ===================== Codec round trip ===================== -/

/-- Field-width conditions under which a token survives its format's
encoder unchanged (the 32x2 encoder truncates larger fields mod 2^32; the
binary length fields reinterpret bit patterns at or above 2^63 as negative;
the ascii number rendering only matches the decoder for nonnegative
lengths). -/
def FmtOK (fmt : RLZFmt) (t : RLZToken) : Prop :=
  match fmt with
  | .f32x2 => t.start_pos < 2 ^ 32 ∧ 0 ≤ t.length ∧ t.length < 2 ^ 32
  | .f64x2 => t.start_pos < 2 ^ 64 ∧ 0 ≤ t.length ∧ t.length < 2 ^ 63
  | .ascii => 0 ≤ t.length
  | .vbyte => t.start_pos < 2 ^ 64 ∧ 0 ≤ t.length ∧ t.length < 2 ^ 63

instance (fmt : RLZFmt) (t : RLZToken) : Decidable (FmtOK fmt t) := by
  unfold FmtOK
  cases fmt <;> infer_instance

/-- The end sentinel satisfies its own recogniser. -/
theorem is_end_sentinel_self : is_end_sentinel end_sentinel = true := by decide

/-- On an exhausted stream every non-ascii reader yields the sentinel. -/
theorem rlz_next_token_nil (fmt : RLZFmt) (hfmt : fmt ≠ .ascii) :
    ∃ st2, rlz_next_token fmt ⟨[], false, false⟩ = .ok (end_sentinel, st2) := by
  cases fmt with
  | f32x2 => exact ⟨⟨[], true, true⟩, rfl⟩
  | f64x2 => exact ⟨⟨[], true, true⟩, rfl⟩
  | ascii => exact absurd rfl hfmt
  | vbyte => exact ⟨⟨[], true, true⟩, rfl⟩

/-- Uniform decoding step over the three formats with stateless framing. -/
theorem step_fmt (fmt : RLZFmt) (hfmt : fmt ≠ .ascii) (t : RLZToken)
    (rest : List Nat) (hok : FmtOK fmt t) (hns : is_end_sentinel t = false) :
    rlz_next_token fmt ⟨output_token fmt t ++ rest, false, false⟩
      = .ok (t, ⟨rest, false, false⟩) := by
  cases fmt with
  | f32x2 =>
    obtain ⟨h1, h2, h3⟩ := hok
    exact step_32x2 t rest hns h1 h2 h3
  | f64x2 =>
    obtain ⟨h1, h2, h3⟩ := hok
    exact step_64x2 t rest hns h1 h2 h3
  | ascii => exact absurd rfl hfmt
  | vbyte =>
    obtain ⟨h1, h2, h3⟩ := hok
    exact step_vbyte t rest hns h1 h2 h3

/-- The decoder loop inverts the encoder over a token list, for the three
formats whose reader leaves no framing bytes behind. -/
theorem decodeGo_chain (fmt : RLZFmt) (hfmt : fmt ≠ .ascii) :
    ∀ (toks : List RLZToken) (fuel : Nat),
      (∀ t ∈ toks, FmtOK fmt t ∧ is_end_sentinel t = false) →
      toks.length < fuel →
      decodeGo fmt fuel ⟨encodeAll fmt toks, false, false⟩ = .ok toks := by
  intro toks
  induction toks with
  | nil =>
    intro fuel _ hfuel
    cases fuel with
    | zero => omega
    | succ f =>
      simp only [encodeAll, List.map_nil, List.flatten_nil]
      rw [decodeGo,
        if_pos (show keep_going ⟨[], false, false⟩ = true from rfl)]
      obtain ⟨st2, hnt⟩ := rlz_next_token_nil fmt hfmt
      rw [hnt]
      dsimp only
      rw [if_pos is_end_sentinel_self]
  | cons t ts ih =>
    intro fuel hmem hfuel
    cases fuel with
    | zero => simp at hfuel
    | succ f =>
      have henc : encodeAll fmt (t :: ts)
          = output_token fmt t ++ encodeAll fmt ts := by
        simp [encodeAll]
      rw [henc, decodeGo,
        if_pos (show keep_going
          ⟨output_token fmt t ++ encodeAll fmt ts, false, false⟩ = true from rfl)]
      rw [step_fmt fmt hfmt t (encodeAll fmt ts) (hmem t (by simp)).1
        (hmem t (by simp)).2]
      dsimp only
      rw [if_neg (by simp [(hmem t (by simp)).2])]
      rw [ih f (fun x hx => hmem x (by simp [hx])) (by simp at hfuel; omega)]

/-- The ascii reader on an exhausted stream (possibly one leftover
newline) yields the sentinel. -/
theorem rlz_next_token_ascii_nil (pre : List Nat) (hpre : pre = [] ∨ pre = [10]) :
    rlz_next_token .ascii ⟨pre, false, false⟩
      = .ok (end_sentinel, ⟨[], true, true⟩) := by
  rcases hpre with rfl | rfl <;> rfl

/-- The decoder loop inverts the encoder for the ascii format, carrying
the newline left behind by each token. -/
theorem decodeGo_chain_ascii :
    ∀ (toks : List RLZToken) (fuel : Nat) (pre : List Nat),
      (pre = [] ∨ pre = [10]) →
      (∀ t ∈ toks, 0 ≤ t.length ∧ is_end_sentinel t = false) →
      toks.length < fuel →
      decodeGo .ascii fuel ⟨pre ++ encodeAll .ascii toks, false, false⟩
        = .ok toks := by
  intro toks
  induction toks with
  | nil =>
    intro fuel pre hpre _ hfuel
    cases fuel with
    | zero => omega
    | succ f =>
      simp only [encodeAll, List.map_nil, List.flatten_nil, List.append_nil]
      rw [decodeGo,
        if_pos (show keep_going ⟨pre, false, false⟩ = true from rfl),
        rlz_next_token_ascii_nil pre hpre]
      dsimp only
      rw [if_pos is_end_sentinel_self]
  | cons t ts ih =>
    intro fuel pre hpre hmem hfuel
    cases fuel with
    | zero => simp at hfuel
    | succ f =>
      have henc : encodeAll .ascii (t :: ts)
          = output_token .ascii t ++ encodeAll .ascii ts := by
        simp [encodeAll]
      rw [henc, decodeGo,
        if_pos (show keep_going
          ⟨pre ++ (output_token .ascii t ++ encodeAll .ascii ts), false, false⟩
            = true from rfl)]
      rw [← List.append_assoc]
      rw [step_ascii t pre (encodeAll .ascii ts) hpre (hmem t (by simp)).2
        (hmem t (by simp)).1]
      dsimp only
      rw [if_neg (by simp [(hmem t (by simp)).2])]
      have hrec := ih f [10] (Or.inr rfl)
        (fun x hx => hmem x (by simp [hx])) (by simp at hfuel; omega)
      simp only [List.singleton_append] at hrec
      rw [hrec]

/-- Every non-sentinel token contributes at least one output byte. -/
theorem output_token_len_pos (fmt : RLZFmt) (t : RLZToken)
    (hns : is_end_sentinel t = false) : 0 < (output_token fmt t).length := by
  unfold output_token
  rw [if_neg (by simp [hns])]
  cases fmt with
  | f32x2 => simp [leBytes_length]
  | f64x2 => simp [leBytes_length]
  | ascii => simp
  | vbyte =>
    simp only [List.length_append]
    unfold vbEncodeField
    by_cases hz : t.start_pos = 0
    · simp [hz]
    · rw [if_neg hz]
      cases hp : t.start_pos with
      | zero => exact absurd hp hz
      | succ n =>
        rw [vbLoop, if_neg (by omega)]
        simp

/-- A token list is never longer than its encoding. -/
theorem toks_le_encodeAll (fmt : RLZFmt) :
    ∀ (toks : List RLZToken), (∀ t ∈ toks, is_end_sentinel t = false) →
      toks.length ≤ (encodeAll fmt toks).length
  | [] => by simp [encodeAll]
  | t :: ts => by
    intro hmem
    have h1 := output_token_len_pos fmt t (hmem t (by simp))
    have h2 := toks_le_encodeAll fmt ts (fun x hx => hmem x (by simp [hx]))
    simp only [encodeAll, List.map_cons, List.flatten_cons, List.length_append,
      List.length_cons] at h2 ⊢
    omega

/-- Decoding inverts encoding on any token list whose fields fit the
format (claim C1's codec layer, all four formats). -/
theorem decodeAll_encodeAll (fmt : RLZFmt) (toks : List RLZToken)
    (h : ∀ t ∈ toks, FmtOK fmt t ∧ is_end_sentinel t = false) :
    decodeAll fmt (encodeAll fmt toks) = .ok toks := by
  unfold decodeAll
  have hlen : toks.length < (encodeAll fmt toks).length + 1 := by
    have := toks_le_encodeAll fmt toks (fun x hx => (h x hx).2)
    omega
  by_cases hfmt : fmt = .ascii
  · subst hfmt
    have := decodeGo_chain_ascii toks ((encodeAll .ascii toks).length + 1) []
      (Or.inl rfl) (fun x hx => ⟨(h x hx).1, (h x hx).2⟩) hlen
    simpa using this
  · exact decodeGo_chain fmt hfmt toks _ h hlen

/- ===================== Windowed unparse ===================== -/

/-- Window algebra: the still-wanted part of the window starting at q
splits into the in-window part of the current token's span (the span is
rows p..p+e of the input) plus the still-wanted part after the token. -/
theorem take_drop_split (I : List Nat) (p e b q : Nat)
    (hpq : p ≤ q) (hqe : q ≤ p + e) :
    (I.take b).drop q
      = (((I.drop p).take e).drop (q - p)).take (b - q)
        ++ (I.take b).drop (p + e) := by
  have h1 : ((I.drop p).take e).drop (q - p) = (I.drop q).take (e - (q - p)) := by
    rw [List.drop_take, List.drop_drop, show p + (q - p) = q from by omega]
  have h2 : (I.take b).drop q = (I.drop q).take (b - q) := List.drop_take b q I
  have h3 : (I.take b).drop (p + e) = (I.drop (p + e)).take (b - (p + e)) :=
    List.drop_take b (p + e) I
  have h4 : I.drop (p + e) = (I.drop q).drop (p + e - q) := by
    rw [List.drop_drop, show q + (p + e - q) = p + e from by omega]
  rw [h1, h2, h3, h4, List.take_take]
  by_cases hbe : b ≤ p + e
  · rw [show b - (p + e) = 0 from by omega,
      show min (b - q) (e - (q - p)) = b - q from by omega]
    simp
  · rw [show min (b - q) (e - (q - p)) = e - (q - p) from by omega,
      show b - q = (e - (q - p)) + (b - (p + e)) from by omega,
      List.take_add, show p + e - q = e - (q - p) from by omega]

/-- Windowed unparse loop invariant (claim C2): with both window bounds
positive, the loop starting at output position p over tokens whose spans
cover I from row p onward appends exactly the still-unwritten part of the
window I[a-1 .. b) at inclusive 1-based bounds. -/
theorem unparseGo_window (W : Nat) (D I : List Nat) (a b : Int)
    (ha : 1 ≤ a) (hab : a ≤ b) (hbI : b.toNat ≤ I.length)
    (hsym : ∀ s ∈ I, s < 2 ^ W) (hD : D.length < 2 ^ 63) :
    ∀ (toks : List RLZToken) (p : Nat) (tr sw : Int) (acc : List Nat),
      (∀ t ∈ toks, TokWF D t ∧ is_end_sentinel t = false) →
      (toks.map (tokSpan D)).flatten = I.drop p →
      (unparseGo W D a b toks tr sw (p : Int) acc).out
        = acc ++ (I.take b.toNat).drop (max (a.toNat - 1) p) := by
  intro toks
  induction toks with
  | nil =>
    intro p tr sw acc _ hflat
    simp only [List.map_nil, List.flatten_nil] at hflat
    have hpI : I.length ≤ p := by
      have hlen := congrArg List.length hflat
      simp only [List.length_nil, List.length_drop] at hlen
      omega
    simp only [unparseGo]
    have hnil : (I.take b.toNat).drop (max (a.toNat - 1) p) = [] := by
      apply List.drop_eq_nil_of_le
      simp only [List.length_take]
      omega
    rw [hnil]
    simp
  | cons tok rest ih =>
    intro p tr sw acc hwf hflat
    obtain ⟨⟨hwl, hwb⟩, hs⟩ := hwf tok (List.mem_cons_self tok rest)
    have hflat' : tokSpan D tok ++ (rest.map (tokSpan D)).flatten = I.drop p := by
      simpa using hflat
    have hspl : (tokSpan D tok).length
        = (if tok.length = 0 then 1 else tok.length.toNat) := by
      unfold tokSpan
      by_cases hl : tok.length = 0
      · simp [hl]
      · have hb2 := hwb (by omega)
        rw [if_neg hl, if_neg hl]
        simp
        omega
    have hsp1 : 1 ≤ (tokSpan D tok).length := by
      rw [hspl]
      by_cases hl : tok.length = 0
      · simp [hl]
      · rw [if_neg hl]
        omega
    have hSP : tokSpan D tok = (I.drop p).take (tokSpan D tok).length := by
      rw [← hflat']
      exact (List.take_left _ _).symm
    have hrest : (rest.map (tokSpan D)).flatten
        = I.drop (p + (tokSpan D tok).length) := by
      have hdl := congrArg (List.drop (tokSpan D tok).length) hflat'
      rw [List.drop_left] at hdl
      rw [hdl, List.drop_drop, Nat.add_comm]
    have hpe : p + (tokSpan D tok).length ≤ I.length := by
      have hlen := congrArg List.length hflat'
      simp only [List.length_append, List.length_drop] at hlen
      omega
    have hmemI : ∀ x ∈ tokSpan D tok, x ∈ I := by
      intro x hx
      rw [hSP] at hx
      exact List.mem_of_mem_drop (List.mem_of_mem_take hx)
    have hwfr : ∀ t ∈ rest, TokWF D t ∧ is_end_sentinel t = false :=
      fun t ht => hwf t (List.mem_cons_of_mem tok ht)
    have hcast : (p : Int) + ((tokSpan D tok).length : Int)
        = (((p + (tokSpan D tok).length : Nat)) : Int) := by push_cast; ring
    simp only [unparseGo]
    rw [if_neg (by simp [hs])]
    rw [if_neg (by omega : ¬(a = 0 ∧ b = 0))]
    rw [if_neg (by omega : ¬(a > 0 ∧ b = 0))]
    rw [if_neg (by omega : ¬(a = 0 ∧ b > 0))]
    have heI : (if tok.length = 0 then (1 : Int) else tok.length)
        = ((tokSpan D tok).length : Int) := by
      rw [hspl]
      by_cases hl : tok.length = 0
      · simp [hl]
      · rw [if_neg hl, if_neg hl]
        omega
    rw [heI]
    by_cases h1a : (p : Int) + 1 > b
    · rw [if_pos (Or.inl h1a), if_pos h1a]
      have hnil : (I.take b.toNat).drop (max (a.toNat - 1) p) = [] := by
        apply List.drop_eq_nil_of_le
        simp only [List.length_take]
        omega
      rw [hnil]
      simp
    · by_cases h1b : (p : Int) + ((tokSpan D tok).length : Int) < a
      · rw [if_pos (Or.inr h1b), if_neg h1a]
        rw [hcast, ih (p + (tokSpan D tok).length) (tr + 1) sw acc hwfr hrest]
        have hm1 : max (a.toNat - 1) p = a.toNat - 1 := by omega
        have hm2 : max (a.toNat - 1) (p + (tokSpan D tok).length)
            = a.toNat - 1 := by omega
        rw [hm1, hm2]
      · rw [if_neg (by omega : ¬((p : Int) + 1 > b
          ∨ (p : Int) + ((tokSpan D tok).length : Int) < a))]
        by_cases h2 : (p : Int) + 1 ≥ a
          ∧ (p : Int) + ((tokSpan D tok).length : Int) ≤ b
        · rw [if_pos h2]
          have hout : (write_next W D tok 0 0).out = tokSpan D tok := by
            by_cases hl : tok.length = 0
            · rw [write_next_lit W D tok 0 0 hl]
              unfold tokSpan
              rw [if_pos hl]
              have hx : tok.start_pos ∈ tokSpan D tok := by
                unfold tokSpan
                rw [if_pos hl]
                simp
              have := hsym tok.start_pos (hmemI tok.start_pos hx)
              simp [Nat.mod_eq_of_lt this]
            · have hb := hwb (by omega)
              rw [write_next_copy W D tok (by omega) (by omega) hb]
              unfold tokSpan
              rw [if_neg hl]
          rw [hcast, ih (p + (tokSpan D tok).length) (tr + 1) _ _ hwfr hrest]
          rw [hout]
          have hm1 : max (a.toNat - 1) p = p := by omega
          have hm2 : max (a.toNat - 1) (p + (tokSpan D tok).length)
              = p + (tokSpan D tok).length := by omega
          rw [hm1, hm2]
          rw [take_drop_split I p (tokSpan D tok).length b.toNat p le_rfl
            (by omega)]
          rw [← hSP, Nat.sub_self, List.drop_zero]
          have htk : (tokSpan D tok).take (b.toNat - p) = tokSpan D tok :=
            List.take_of_length_le (by omega)
          rw [htk]
          simp
        · by_cases h3 : (p : Int) + 1 ≤ a
            ∧ (p : Int) + ((tokSpan D tok).length : Int) ≤ b
          · rw [if_neg h2, if_pos h3]
            have hl : ¬ tok.length = 0 := by
              intro hl0
              have : (tokSpan D tok).length = 1 := by rw [hspl, if_pos hl0]
              omega
            have hb2 := hwb (by omega)
            have hlsp : (tokSpan D tok).length = tok.length.toNat := by
              rw [hspl, if_neg hl]
            rw [write_next_window W D tok (a - ((p : Int) + 1)) tok.length
              (by omega) (by omega) hb2 (by omega) le_rfl (by omega)]
            rw [hcast, ih (p + (tokSpan D tok).length) (tr + 1) _ _ hwfr hrest]
            have hm1 : max (a.toNat - 1) p = a.toNat - 1 := by omega
            have hm2 : max (a.toNat - 1) (p + (tokSpan D tok).length)
                = p + (tokSpan D tok).length := by omega
            rw [hm1, hm2]
            rw [take_drop_split I p (tokSpan D tok).length b.toNat
              (a.toNat - 1) (by omega) (by omega)]
            rw [← hSP]
            have hpiece : ((tokSpan D tok).drop (a.toNat - 1 - p)).take
                (b.toNat - (a.toNat - 1))
                = (tokSpan D tok).drop (a.toNat - 1 - p) :=
              List.take_of_length_le (by simp; omega)
            rw [hpiece]
            have hsp : tokSpan D tok
                = (D.drop tok.start_pos).take tok.length.toNat := by
              unfold tokSpan
              rw [if_neg hl]
            have hdrop : (tokSpan D tok).drop (a.toNat - 1 - p)
                = (D.drop (tok.start_pos + (a - ((p : Int) + 1)).toNat)).take
                  (tok.length.toNat - (a - ((p : Int) + 1)).toNat) := by
              rw [hsp, List.drop_take, List.drop_drop]
              have he1 : tok.start_pos + (a.toNat - 1 - p)
                  = tok.start_pos + (a - ((p : Int) + 1)).toNat := by omega
              have he2 : tok.length.toNat - (a.toNat - 1 - p)
                  = tok.length.toNat - (a - ((p : Int) + 1)).toNat := by omega
              rw [he1, he2]
            rw [hdrop]
            simp
          · by_cases h4 : (p : Int) + 1 ≥ a
                ∧ (p : Int) + ((tokSpan D tok).length : Int) ≥ b
            · rw [if_neg h2, if_neg h3, if_pos h4]
              have hl : ¬ tok.length = 0 := by
                intro hl0
                have hq : (tokSpan D tok).length = 1 := by rw [hspl, if_pos hl0]
                exact h2 ⟨h4.1, by omega⟩
              have hb2 := hwb (by omega)
              have hlsp : (tokSpan D tok).length = tok.length.toNat := by
                rw [hspl, if_neg hl]
              rw [write_next_window W D tok 0
                (tok.length + b - ((p : Int) + ((tokSpan D tok).length : Int)))
                (by omega) (by omega) hb2 le_rfl (by omega) (by omega)]
              rw [hcast, ih (p + (tokSpan D tok).length) (tr + 1) _ _ hwfr hrest]
              have hm1 : max (a.toNat - 1) p = p := by omega
              have hm2 : max (a.toNat - 1) (p + (tokSpan D tok).length)
                  = p + (tokSpan D tok).length := by omega
              rw [hm1, hm2]
              rw [take_drop_split I p (tokSpan D tok).length b.toNat p le_rfl
                (by omega)]
              rw [← hSP, Nat.sub_self, List.drop_zero]
              have hsp : tokSpan D tok
                  = (D.drop tok.start_pos).take tok.length.toNat := by
                unfold tokSpan
                rw [if_neg hl]
              have hpiece : (tokSpan D tok).take (b.toNat - p)
                  = (D.drop (tok.start_pos + (0 : Int).toNat)).take
                    ((tok.length + b - ((p : Int)
                      + ((tokSpan D tok).length : Int))).toNat - (0 : Int).toNat) := by
                conv_lhs => rw [hsp, List.take_take]
                have he : min (b.toNat - p) tok.length.toNat
                    = (tok.length + b - ((p : Int)
                      + ((tokSpan D tok).length : Int))).toNat - (0 : Int).toNat := by
                  rw [hlsp]
                  omega
                rw [he, show ((0 : Int).toNat) = 0 from rfl, Nat.add_zero,
                  Nat.sub_zero]
              rw [hpiece]
              simp
            · rw [if_neg h2, if_neg h3, if_neg h4]
              have hl : ¬ tok.length = 0 := by
                intro hl0
                have hq : (tokSpan D tok).length = 1 := by rw [hspl, if_pos hl0]
                exact h3 ⟨by omega, by omega⟩
              have hb2 := hwb (by omega)
              have hlsp : (tokSpan D tok).length = tok.length.toNat := by
                rw [hspl, if_neg hl]
              rw [write_next_window W D tok (a - ((p : Int) + 1))
                (tok.length + b - ((p : Int) + ((tokSpan D tok).length : Int)))
                (by omega) (by omega) hb2 (by omega) (by omega) (by omega)]
              rw [hcast, ih (p + (tokSpan D tok).length) (tr + 1) _ _ hwfr hrest]
              have hm1 : max (a.toNat - 1) p = a.toNat - 1 := by omega
              have hm2 : max (a.toNat - 1) (p + (tokSpan D tok).length)
                  = p + (tokSpan D tok).length := by omega
              rw [hm1, hm2]
              rw [take_drop_split I p (tokSpan D tok).length b.toNat
                (a.toNat - 1) (by omega) (by omega)]
              rw [← hSP]
              have hsp : tokSpan D tok
                  = (D.drop tok.start_pos).take tok.length.toNat := by
                unfold tokSpan
                rw [if_neg hl]
              have hpiece : ((tokSpan D tok).drop (a.toNat - 1 - p)).take
                  (b.toNat - (a.toNat - 1))
                  = (D.drop (tok.start_pos + (a - ((p : Int) + 1)).toNat)).take
                    ((tok.length + b - ((p : Int)
                      + ((tokSpan D tok).length : Int))).toNat
                      - (a - ((p : Int) + 1)).toNat) := by
                conv_lhs => rw [hsp, List.drop_take, List.drop_drop,
                  List.take_take]
                have he1 : tok.start_pos + (a.toNat - 1 - p)
                    = tok.start_pos + (a - ((p : Int) + 1)).toNat := by omega
                have he2 : min (b.toNat - (a.toNat - 1))
                    (tok.length.toNat - (a.toNat - 1 - p))
                    = (tok.length + b - ((p : Int)
                      + ((tokSpan D tok).length : Int))).toNat
                      - (a - ((p : Int) + 1)).toNat := by
                  rw [hlsp]
                  omega
                rw [he1, he2]
              rw [hpiece]
              simp

/- ===================== Claim support ===================== -/

/-- A literal token's symbol occurs in the parsed input. -/
theorem lit_mem_I (D : List Nat) (toks : List RLZToken) (I : List Nat)
    (hflat : (toks.map (tokSpan D)).flatten = I)
    (t : RLZToken) (ht : t ∈ toks) (hl : t.length = 0) : t.start_pos ∈ I := by
  rw [← hflat]
  apply List.mem_flatten.mpr
  refine ⟨tokSpan D t, List.mem_map_of_mem _ ht, ?_⟩
  unfold tokSpan
  rw [if_pos hl]
  simp

/-- The W-bit write of a token agrees with its abstract span when a literal
symbol fits in W bits. -/
theorem spanW_eq_tokSpan (W : Nat) (D : List Nat) (t : RLZToken)
    (h : t.length = 0 → t.start_pos < 2 ^ W) : spanW W D t = tokSpan D t := by
  unfold spanW tokSpan
  by_cases hl : t.length = 0
  · rw [if_pos hl, if_pos hl, Nat.mod_eq_of_lt (h hl)]
  · rw [if_neg hl, if_neg hl]

/- ===================== Claims ===================== -/

/-- C1 (counterexample to the claim as stated): over the valid sorted
suffix array [0, 1] of the dictionary "ab", parsing "abq" makes the
single-match fast path read dict[2], one past the dictionary end; when the
out-of-range read (oracle) returns the matching byte 113 the parser emits
the token (0, 3) and the full round trip returns "ab", not "abq". -/
theorem C1_cex :
    SortedSA [97, 98] [0, 1]
    ∧ roundtrip .f32x2 8 [97, 98] [0, 1] (fun _ => 113) [97, 98, 113]
        = some [97, 98]
    ∧ some [97, 98] ≠ some ([97, 98, 113] : List Nat) := by
  refine ⟨by decide, by decide, by decide⟩

/-- C1 (amended): for every symbol width W in {8,16,32,64} and every token
format, if the parser succeeds without any out-of-range dictionary read
(oob flag false), the input symbols fit W bits, the dictionary holds fewer
than 2^63 symbols, and (for the 32x2 format) all emitted token fields fit
32 bits, then decompressing the encoded token stream reproduces the input
exactly: roundtrip = some I. -/
theorem C1_roundtrip_amended (fmt : RLZFmt) (W : Nat) (D SA : List Nat)
    (g : Nat → Nat) (I : List Nat) (toks : List RLZToken)
    (hW : W = 8 ∨ W = 16 ∨ W = 32 ∨ W = 64)
    (hsort : SortedSA D SA)
    (hp : parse D SA g I = .ok (toks, false))
    (hsym : ∀ s ∈ I, s < 2 ^ W)
    (hD : D.length < 2 ^ 63)
    (h32 : fmt = .f32x2 → ∀ t ∈ toks, t.start_pos < 2 ^ 32 ∧ t.length < 2 ^ 32) :
    roundtrip fmt W D SA g I = some I := by
  obtain ⟨hflat, hwf⟩ := parse_spec D SA g I toks hsort hp
  have hW64 : 2 ^ W ≤ 2 ^ 64 := by
    rcases hW with rfl | rfl | rfl | rfl <;> norm_num
  have hfm : ∀ t ∈ toks, FmtOK fmt t ∧ is_end_sentinel t = false := by
    intro t ht
    obtain ⟨⟨hwl, hwb⟩, hns⟩ := hwf t ht
    refine ⟨?_, hns⟩
    have hbase : t.start_pos < 2 ^ 64 ∧ t.length < 2 ^ 63 := by
      by_cases hl : t.length = 0
      · have hmem := lit_mem_I D toks I hflat t ht hl
        have hsw := hsym _ hmem
        constructor
        · omega
        · omega
      · have hb := hwb (by omega)
        constructor
        · omega
        · omega
    cases fmt with
    | f32x2 =>
      obtain ⟨hp1, hp2⟩ := h32 rfl t ht
      exact ⟨hp1, hwl, hp2⟩
    | f64x2 => exact ⟨hbase.1, hwl, hbase.2⟩
    | ascii => exact hwl
    | vbyte => exact ⟨hbase.1, hwl, hbase.2⟩
  unfold roundtrip
  rw [hp]
  dsimp only
  rw [decodeAll_encodeAll fmt toks hfm]
  dsimp only
  unfold unparse
  rw [unparseGo_full_out W D hD toks 0 0 0 [] hwf]
  have hspan : toks.map (spanW W D) = toks.map (tokSpan D) :=
    List.map_congr_left (fun t ht => spanW_eq_tokSpan W D t
      (fun hl => hsym _ (lit_mem_I D toks I hflat t ht hl)))
  rw [hspan, hflat]
  simp

/-- C1 witness: the amended round trip at a concrete instance (dictionary
"ab", input "a", 64x2 format, W = 8). -/
theorem C1_witness :
    SortedSA [97, 98] [0, 1]
    ∧ parse [97, 98] [0, 1] (fun _ => 0) [97] = .ok ([⟨0, 1⟩], false)
    ∧ roundtrip .f64x2 8 [97, 98] [0, 1] (fun _ => 0) [97] = some [97] :=
  ⟨by decide, by decide,
    C1_roundtrip_amended .f64x2 8 [97, 98] [0, 1] (fun _ => 0) [97] [⟨0, 1⟩]
      (Or.inl rfl) (by decide) (by decide) (by decide) (by decide)
      (fun h => by cases h)⟩

/-- C2 (counterexample to the claim as stated): on the out-of-range-read
instance of C1 the parser emits (0, 3) over the 2-symbol dictionary "ab";
windowed decompression of that stream with bounds (3, 3) writes nothing,
while I[2..3) of the original input "abq" is "q". -/
theorem C2_cex :
    SortedSA [97, 98] [0, 1]
    ∧ parse [97, 98] [0, 1] (fun _ => 113) [97, 98, 113]
        = .ok ([⟨0, 3⟩], true)
    ∧ (unparse 8 [97, 98] [⟨0, 3⟩] 3 3).out = []
    ∧ (([97, 98, 113] : List Nat).take 3).drop 2 = [113] := by
  refine ⟨by decide, by decide, by decide, by decide⟩

/-- C2 (amended): when the parser succeeds without any out-of-range
dictionary read and the input symbols fit W bits, windowed decompression
with inclusive 1-based bounds 1 <= a <= b <= the input length writes
exactly the window I[a-1 .. b) of the original input. -/
theorem C2_windowed_amended (W : Nat) (D SA : List Nat) (g : Nat → Nat)
    (I : List Nat) (toks : List RLZToken) (a b : Int)
    (hsort : SortedSA D SA)
    (hp : parse D SA g I = .ok (toks, false))
    (hsym : ∀ s ∈ I, s < 2 ^ W) (hD : D.length < 2 ^ 63)
    (ha : 1 ≤ a) (hab : a ≤ b) (hb : b ≤ (I.length : Int)) :
    (unparse W D toks a b).out = (I.take b.toNat).drop (a.toNat - 1) := by
  obtain ⟨hflat, hwf⟩ := parse_spec D SA g I toks hsort hp
  unfold unparse
  have hinv := unparseGo_window W D I a b ha hab (by omega) hsym hD
    toks 0 0 0 [] hwf (by simpa using hflat)
  simpa using hinv

/-- C2 witness: parsing "ab" against dictionary "ab" and unparsing with
window (2, 2) yields the second input symbol. -/
theorem C2_witness :
    SortedSA [97, 98] [0, 1]
    ∧ parse [97, 98] [0, 1] (fun _ => 0) [97, 98] = .ok ([⟨0, 2⟩], false)
    ∧ (unparse 8 [97, 98] [⟨0, 2⟩] 2 2).out
        = (([97, 98] : List Nat).take 2).drop 1 :=
  ⟨by decide, by decide,
    by
      have := C2_windowed_amended 8 [97, 98] [0, 1] (fun _ => 0) [97, 98]
        [⟨0, 2⟩] 2 2 (by decide) (by decide) (by decide) (by decide)
        (by decide) (by decide) (by decide)
      simpa using this⟩

/-- C3 (code bug): with the valid sorted suffix array [0, 1] of the
dictionary "ab" and input "abq", the single-match fast path reads the
dictionary one past its end (the oob flag is set); when the out-of-range
memory (oracle) holds the matching byte 113 the emitted copy token (0, 3)
violates start_pos + length <= 2 = the dictionary length. -/
theorem C3_oob_read :
    SortedSA [97, 98] [0, 1]
    ∧ parse [97, 98] [0, 1] (fun _ => 113) [97, 98, 113]
        = .ok ([⟨0, 3⟩], true)
    ∧ ¬((0 : Nat) + ((3 : Int)).toNat ≤ ([97, 98] : List Nat).length) := by
  refine ⟨by decide, by decide, by decide⟩

/-- C4 (counterexample to the claim as stated): search_right over D = [5],
SA = [0] looking for symbol 3 in the inclusive range [0, 0] finds no match
(D[SA[0]] = 5 is not 3) yet returns -(right - 1) = 2, a nonnegative value,
so the caller's res < 0 check cannot detect the failure. -/
theorem C4_cex :
    search_right [5] [0] 3 0 0 0 = 2
    ∧ ¬(search_right [5] [0] 3 0 0 0 < 0)
    ∧ (∀ m : Int, 0 ≤ m → m ≤ 0 →
        ¬(dget [5] (saGetI [0] m + 0) = 3)) := by
  refine ⟨by decide, by decide, ?_⟩
  intro m h1 h2
  have hm : m = 0 := by omega
  subst hm
  decide

/-- C4 (amended): search_left does return a negative value whenever no
index m in the inclusive range [L, R] has an in-bounds match
D[SA[m] + offset] == c; search_right does not share this property (its
not-found return -(right - 1) can be nonnegative, see the counterexample). -/
theorem C4_search_left_negative (D SA : List Nat) (c off : Nat) (L R : Int)
    (h0 : 0 ≤ L)
    (hno : ∀ j : Int, L ≤ j → j ≤ R →
      ¬(saGetI SA j + off < D.length ∧ dget D (saGetI SA j + off) = c)) :
    search_left D SA c off L R < 0 :=
  searchLeftGo_notfound D SA c off L _ L R h0 hno

/-- C4 witness: search_left on the instance of the counterexample returns
a negative value. -/
theorem C4_witness :
    (0 : Int) ≤ 0 ∧ search_left [5] [0] 3 0 0 0 < 0 :=
  ⟨by decide,
    C4_search_left_negative [5] [0] 3 0 0 0 (by decide)
      (fun j h1 h2 => by
        have hj : j = 0 := by omega
        subst hj
        decide)⟩

/-- Byte pattern of the vbyte chunk loop on a positive value: every byte
except the last has the continuation bit 0x80 set, the last does not. -/
theorem vbLoop_bytes : ∀ (fuel N : Nat), 0 < N → N ≤ fuel →
    ∃ ys bl, vbLoop fuel N = ys ++ [bl] ∧ (∀ x ∈ ys, 128 ≤ x) ∧ bl < 128
  | 0, N => fun h1 h2 => absurd h1 (by omega)
  | fuel + 1, N => fun h1 h2 => by
    rw [vbLoop, if_neg (by omega)]
    by_cases hsmall : N ≤ 127
    · have hdiv : N / 128 = 0 := by omega
      rw [if_pos hsmall, hdiv, vbLoop_zero]
      exact ⟨[], N, rfl, by simp, by omega⟩
    · rw [if_neg hsmall]
      obtain ⟨ys, bl, heq, hys, hbl⟩ :=
        vbLoop_bytes fuel (N / 128) (by omega) (by omega)
      refine ⟨(N % 128 + 128) :: ys, bl, by rw [heq, List.cons_append], ?_, hbl⟩
      intro x hx
      rcases List.mem_cons.mp hx with rfl | h
      · omega
      · exact hys x h

/-- C5: vbyte field laws for every N below 2^64: the decoder reads back
exactly N from its encoding with the final shift width under the limit;
zero encodes as the single byte 0x00; a positive value encodes
least-significant-7-bits-first with the continuation bit set on every byte
but the last. -/
theorem C5_vbyte_laws (N : Nat) (hN : N < 2 ^ 64) :
    (∃ sw2, sw2 < 64 ∧ vbReadField 64 (vbEncodeField N) 0 0
        = some (N, sw2, []))
    ∧ vbEncodeField 0 = [0]
    ∧ (0 < N → ∃ ys bl, vbEncodeField N = ys ++ [bl]
        ∧ (∀ x ∈ ys, 128 ≤ x) ∧ bl < 128) := by
  refine ⟨?_, by decide, ?_⟩
  · obtain ⟨sw2, hsw2, heq⟩ := vbReadField_encodeField N [] hN
    rw [List.append_nil] at heq
    exact ⟨sw2, hsw2, heq⟩
  · intro h0
    have henc : vbEncodeField N = vbLoop N N := by
      unfold vbEncodeField
      rw [if_neg (by omega)]
    rw [henc]
    exact vbLoop_bytes N N h0 le_rfl

/-- C5 witness: the laws at N = 300 (encoding AC 02). -/
theorem C5_witness :
    (300 : Nat) < 2 ^ 64
    ∧ ((∃ sw2, sw2 < 64 ∧ vbReadField 64 (vbEncodeField 300) 0 0
          = some (300, sw2, []))
      ∧ vbEncodeField 0 = [0]
      ∧ (0 < 300 → ∃ ys bl, vbEncodeField 300 = ys ++ [bl]
          ∧ (∀ x ∈ ys, 128 ≤ x) ∧ bl < 128)) :=
  ⟨by decide, C5_vbyte_laws 300 (by decide)⟩

/-- A field read that starts at or beyond the shift limit consumes nothing. -/
theorem vbReadField_stop (limit : Nat) (l : List Nat) (sw acc : Nat)
    (h : limit ≤ sw) : vbReadField limit l sw acc = some (acc, sw, l) := by
  cases l with
  | nil => rw [vbReadField, if_neg (by omega)]
  | cons b bs => rw [vbReadField, if_neg (by omega)]

/-- Reading a run of continuation bytes long enough to cross the shift
limit always stops with the shift width at a multiple of 7 at or past the
limit. -/
theorem vbReadField_overflow (limit : Nat) :
    ∀ (bs rest : List Nat) (sw acc : Nat),
      (∀ x ∈ bs, 128 ≤ x) → sw < limit → limit ≤ sw + 7 * bs.length →
      ∃ acc2 k rest2, vbReadField limit (bs ++ rest) sw acc
          = some (acc2, sw + 7 * k, rest2) ∧ limit ≤ sw + 7 * k
  | [], rest => by
    intro sw acc _ h1 h2
    simp only [List.length_nil, Nat.mul_zero, Nat.add_zero] at h2
    exact absurd h2 (by omega)
  | b :: bs, rest => by
    intro sw acc hmem hsw hlen
    simp only [List.cons_append]
    rw [vbReadField, if_pos hsw, if_pos (hmem b (by simp))]
    by_cases hnext : sw + 7 < limit
    · obtain ⟨acc2, k, rest2, heq, hge⟩ :=
        vbReadField_overflow limit bs rest (sw + 7) _
          (fun x hx => hmem x (by simp [hx])) hnext
          (by simp only [List.length_cons] at hlen; omega)
      refine ⟨acc2, k + 1, rest2, ?_, by omega⟩
      rw [heq, show sw + 7 + 7 * k = sw + 7 * (k + 1) from by ring]
    · rw [vbReadField_stop limit (bs ++ rest) (sw + 7) _ (by omega)]
      exact ⟨_, 1, bs ++ rest,
        by rw [show sw + 7 * 1 = sw + 7 from by ring], by omega⟩

/-- C6: the vbyte reader aborts the process with exit status 1 (modelled
as error 1) when the start_pos field carries more than 10 continuation
bytes, or a well-formed start_pos field is followed by a length field
carrying more than 9 continuation bytes; in particular it aborts on the
bytes FF FF FF FF FF FF FF FF FF FF 80. -/
theorem C6_vbyte_overflow_abort (bs cs rest rest2 : List Nat) (N : Nat)
    (hbs : 11 ≤ bs.length) (hbsm : ∀ x ∈ bs, 128 ≤ x)
    (hN : N < 2 ^ 64)
    (hcs : 10 ≤ cs.length) (hcsm : ∀ x ∈ cs, 128 ≤ x) :
    rlz_next_token .vbyte ⟨bs ++ rest, false, false⟩ = .error 1
    ∧ rlz_next_token .vbyte ⟨vbEncodeField N ++ (cs ++ rest2), false, false⟩
        = .error 1
    ∧ rlz_next_token .vbyte
        ⟨[255, 255, 255, 255, 255, 255, 255, 255, 255, 255, 128],
         false, false⟩ = .error 1 := by
  refine ⟨?_, ?_, by decide⟩
  · obtain ⟨acc2, k, rest3, heq, hge⟩ := vbReadField_overflow 64 bs rest 0 0
      hbsm (by norm_num) (by omega)
    have hgt : 0 + 7 * k > 64 := by omega
    unfold rlz_next_token
    rw [if_neg (by simp)]
    have hnt : next_token_vbyte ⟨bs ++ rest, false, false⟩
        = (⟨0, -1⟩, ⟨rest3, false, false⟩) := by
      unfold next_token_vbyte
      rw [heq]
      dsimp only
      rw [if_pos hgt]
    dsimp only
    rw [hnt]
    rfl
  · obtain ⟨sw2, hsw2, heq1⟩ := vbReadField_encodeField N (cs ++ rest2) hN
    obtain ⟨acc2, k, rest3, heq2, hge⟩ := vbReadField_overflow 63 cs rest2 0 0
      hcsm (by norm_num) (by omega)
    unfold rlz_next_token
    rw [if_neg (by simp)]
    have hnt : next_token_vbyte
        ⟨vbEncodeField N ++ (cs ++ rest2), false, false⟩
        = (⟨0, -1⟩, ⟨rest3, false, false⟩) := by
      unfold next_token_vbyte
      rw [heq1]
      dsimp only
      rw [if_neg (by omega), heq2]
      dsimp only
      rw [if_pos (by omega : 0 + 7 * k ≥ 63)]
    dsimp only
    rw [hnt]
    rfl

/-- C6 witness: both overflow shapes at concrete streams of FF bytes. -/
theorem C6_witness :
    11 ≤ (List.replicate 11 255).length
    ∧ (∀ x ∈ List.replicate 11 (255 : Nat), 128 ≤ x)
    ∧ (0 : Nat) < 2 ^ 64
    ∧ 10 ≤ (List.replicate 10 255).length
    ∧ (∀ x ∈ List.replicate 10 (255 : Nat), 128 ≤ x)
    ∧ (rlz_next_token .vbyte
          ⟨List.replicate 11 255 ++ [], false, false⟩ = .error 1
      ∧ rlz_next_token .vbyte
          ⟨vbEncodeField 0 ++ (List.replicate 10 255 ++ []), false, false⟩
          = .error 1
      ∧ rlz_next_token .vbyte
          ⟨[255, 255, 255, 255, 255, 255, 255, 255, 255, 255, 128],
           false, false⟩ = .error 1) :=
  ⟨by decide, by decide, by decide, by decide, by decide,
    C6_vbyte_overflow_abort (List.replicate 11 255) (List.replicate 10 255)
      [] [] 0 (by decide) (by decide) (by decide) (by decide) (by decide)⟩

/-- C8 (counterexample to the claim as stated): unparsing the token (0, 5)
over the dictionary "abrac" with window (3, 5) writes 3 symbols, yet the
returned symbols_written is 5: write_next reports the full token length
even for a partially emitted token. -/
theorem C8_cex :
    (unparse 8 [97, 98, 114, 97, 99] [⟨0, 5⟩] 3 5).out.length = 3
    ∧ (unparse 8 [97, 98, 114, 97, 99] [⟨0, 5⟩] 3 5).symsWritten = 5
    ∧ (unparse 8 [97, 98, 114, 97, 99] [⟨0, 5⟩] 3 5).toksRead = 1 := by
  refine ⟨by decide, by decide, by decide⟩

/-- C8 (amended): unparse returns the pair (tokens_read, symbols_written)
where tokens_read counts the non-sentinel tokens consumed and, in
whole-stream mode, symbols_written sums write_next's return values: the
full token length (1 for a literal) for every token, whether or not that
many symbols were actually written. -/
theorem C8_counts_amended (W : Nat) (D : List Nat) (toks : List RLZToken)
    (h : ∀ t ∈ toks, is_end_sentinel t = false) :
    (unparse W D toks 0 0).toksRead = toks.length
    ∧ (unparse W D toks 0 0).symsWritten
        = (toks.map (fun t => if t.length = 0 then (1 : Int)
            else t.length)).sum := by
  unfold unparse
  have h2 := unparseGo_full_counts W D toks 0 0 0 [] h
  constructor
  · rw [h2.1]
    simp
  · rw [h2.2]
    simp

/-- C8 witness: the counts at a concrete two-token stream. -/
theorem C8_witness :
    (∀ t ∈ [(⟨0, 2⟩ : RLZToken), ⟨7, 0⟩], is_end_sentinel t = false)
    ∧ ((unparse 8 [4, 5] [⟨0, 2⟩, ⟨7, 0⟩] 0 0).toksRead
          = ([(⟨0, 2⟩ : RLZToken), ⟨7, 0⟩] : List RLZToken).length
      ∧ (unparse 8 [4, 5] [⟨0, 2⟩, ⟨7, 0⟩] 0 0).symsWritten
          = (([(⟨0, 2⟩ : RLZToken), ⟨7, 0⟩]).map
              (fun t => if t.length = 0 then (1 : Int) else t.length)).sum) :=
  ⟨by decide, C8_counts_amended 8 [4, 5] [⟨0, 2⟩, ⟨7, 0⟩] (by decide)⟩

/-- C9 (code bug): the ascii reader returns the sentinel when EOF is hit
while extracting the first field, but when the stream ends right after the
start_pos number and trailing whitespace ("5 "), the second extraction
yields an empty string and std::stol throws an uncaught
std::invalid_argument, killing the process (SIGABRT, modelled as error
134) instead of yielding the sentinel. -/
theorem C9_ascii_eof_abort :
    rlz_next_token .ascii ⟨[53, 32], false, false⟩ = .error 134
    ∧ rlz_next_token .ascii ⟨[53], false, false⟩
        = .ok (end_sentinel, ⟨[], true, false⟩)
    ∧ rlz_next_token .ascii ⟨[], false, false⟩
        = .ok (end_sentinel, ⟨[], true, true⟩) := by
  refine ⟨by decide, by decide, by decide⟩

/-- C10: in 32x2 mode every non-sentinel token is written as its two fields
reduced mod 2^32, each as 4 little-endian bytes (8 bytes total, values
recoverable by the little-endian reinterpretation), and the emitted bytes
are identical to those of the already-truncated token: field values at or
above 2^32 are truncated silently. -/
theorem C10_32x2_truncation (t : RLZToken) (hns : is_end_sentinel t = false) :
    output_token .f32x2 t
      = leBytes 4 (t.start_pos % 2 ^ 32) ++ leBytes 4 ((t.length % 2 ^ 32).toNat)
    ∧ (output_token .f32x2 t).length = 8
    ∧ leVal (leBytes 4 (t.start_pos % 2 ^ 32)) = t.start_pos % 2 ^ 32
    ∧ leVal (leBytes 4 ((t.length % 2 ^ 32).toNat)) = (t.length % 2 ^ 32).toNat
    ∧ output_token .f32x2 t
        = output_token .f32x2 ⟨t.start_pos % 2 ^ 32, t.length % 2 ^ 32⟩ := by
  have henc : output_token .f32x2 t
      = leBytes 4 (t.start_pos % 2 ^ 32)
        ++ leBytes 4 ((t.length % 2 ^ 32).toNat) := by
    unfold output_token
    rw [if_neg (by simp [hns])]
  have hns2 : is_end_sentinel ⟨t.start_pos % 2 ^ 32, t.length % 2 ^ 32⟩
      = false := by
    unfold is_end_sentinel
    simp only [Bool.and_eq_false_iff, beq_eq_false_iff_ne, ne_eq]
    unfold U64MAX
    left
    omega
  have henc2 : output_token .f32x2 ⟨t.start_pos % 2 ^ 32, t.length % 2 ^ 32⟩
      = leBytes 4 ((t.start_pos % 2 ^ 32) % 2 ^ 32)
        ++ leBytes 4 (((t.length % 2 ^ 32) % 2 ^ 32).toNat) := by
    unfold output_token
    rw [if_neg (by
      unfold is_end_sentinel U64MAX
      simp only [Bool.and_eq_true, beq_iff_eq, not_and]
      intro h
      omega)]
  refine ⟨henc, ?_, ?_, ?_, ?_⟩
  · rw [henc]
    simp [leBytes_length]
  · exact leVal_leBytes 4 _ (by norm_num; omega)
  · exact leVal_leBytes 4 _ (by norm_num; omega)
  · rw [henc, henc2,
      show (t.start_pos % 2 ^ 32) % 2 ^ 32 = t.start_pos % 2 ^ 32 from by omega,
      show (t.length % 2 ^ 32) % 2 ^ 32 = t.length % 2 ^ 32 from by omega]

/-- C10 witness: the truncating write at a token with both fields at 2^32
plus a small value. -/
theorem C10_witness :
    is_end_sentinel ⟨2 ^ 32 + 5, 2 ^ 32 + 7⟩ = false
    ∧ output_token .f32x2 ⟨2 ^ 32 + 5, 2 ^ 32 + 7⟩
        = output_token .f32x2
            ⟨(2 ^ 32 + 5) % 2 ^ 32, (2 ^ 32 + 7 : Int) % 2 ^ 32⟩ :=
  ⟨by decide,
    (C10_32x2_truncation ⟨2 ^ 32 + 5, 2 ^ 32 + 7⟩ (by decide)).2.2.2.2⟩
